import Mathlib

/-!
Verification of the constraint-encoding layer of the multilogic puzzle solver.

The development shallowly embeds the Rust sources:
it models `varisat` literals, clauses and growing CNF formulas, the
Tseitin DNF-to-CNF encoder (`util/solve.rs` and `kdoku/mod.rs`), the
combination enumerators (`util/choice.rs` and `util/mod.rs`), the
bounded-integer algebra (`util/integer.rs`) and the kdoku grid encoder
(`kdoku/mod.rs`).  Machine integers are modelled as `Nat` (with explicit
`% 2 ^ w` where the source can wrap) and code that can panic is modelled
with `Option`.
-/

set_option maxRecDepth 4000

/-- A boolean literal: a variable index together with a polarity.
Models `varisat::Lit`; `pol = true` is the positive literal. -/
structure Lit where
  var : Nat
  pol : Bool
deriving DecidableEq

/-- A clause is a disjunction of literals, modelling `varisat` clauses. -/
abbrev Clause := List Lit

/-- A growable CNF formula: the fresh-variable counter together with the
list of clauses added so far.  Models `varisat::CnfFormula`. -/
structure CnfFormula where
  nvars : Nat
  clauses : List Clause
deriving DecidableEq

/-- Truth of a literal under an assignment of the boolean variables. -/
def Lit.sat (σ : Nat → Bool) (l : Lit) : Prop := σ l.var = l.pol

instance (σ : Nat → Bool) (l : Lit) : Decidable (Lit.sat σ l) := by
  unfold Lit.sat; infer_instance

/-- Truth of a clause: some literal of it is true. -/
def Clause.sat (σ : Nat → Bool) (c : Clause) : Prop := ∃ l ∈ c, Lit.sat σ l

instance (σ : Nat → Bool) (c : Clause) : Decidable (Clause.sat σ c) := by
  unfold Clause.sat; infer_instance

/-- Truth of a clause list: every clause holds (CNF semantics). -/
def Formula.sat (σ : Nat → Bool) (f : List Clause) : Prop := ∀ c ∈ f, Clause.sat σ c

instance (σ : Nat → Bool) (f : List Clause) : Decidable (Formula.sat σ f) := by
  unfold Formula.sat; infer_instance

/-- Appending one clause, modelling `ExtendFormula::add_clause`. -/
def CnfFormula.add_clause (s : CnfFormula) (c : Clause) : CnfFormula :=
  { s with clauses := s.clauses ++ [c] }

/-- The loop body of `DnfFormula::add_dnf` (`util/solve.rs`): for each
product a fresh helper variable is allocated, the implication clauses
`(not hv or term)` are appended, and the positive helper literal is
accumulated. -/
def addDnfAux : CnfFormula → List (List Lit) → List Lit → CnfFormula × List Lit
  | s, [], helpers => (s, helpers)
  | s, product :: rest, helpers =>
    let hv := s.nvars
    addDnfAux
      { nvars := s.nvars + 1,
        clauses := s.clauses ++ product.map (fun term => [Lit.mk hv false, term]) }
      rest (helpers ++ [Lit.mk hv true])

/-- Source `DnfFormula::add_dnf` from `util/solve.rs` (the identical
`BaseGrid::add_dnf` in `kdoku/mod.rs` is the same algorithm): encode a
DNF constraint via helper variables and close with the disjunction of
all helpers. -/
def addDnf (s : CnfFormula) (dnf : List (List Lit)) : CnfFormula :=
  let r := addDnfAux s dnf []
  { nvars := r.1.nvars, clauses := r.1.clauses ++ [r.2] }

/-- Closed form of the implication clauses added by `add_dnf` when the
first helper variable is `n0`. -/
def implClauses (n0 : Nat) : List (List Lit) → List Clause
  | [] => []
  | product :: rest =>
    product.map (fun term => [Lit.mk n0 false, term]) ++ implClauses (n0 + 1) rest

/-- Closed form of the final helper clause added by `add_dnf`. -/
def helperClause (n0 : Nat) : Nat → Clause
  | 0 => []
  | len + 1 => Lit.mk n0 true :: helperClause (n0 + 1) len

/-- Closed form of all clauses emitted by one `add_dnf` call. -/
def dnfClauses (n0 : Nat) (dnf : List (List Lit)) : List Clause :=
  implClauses n0 dnf ++ [helperClause n0 dnf.length]

/-- The clauses a single `add_dnf` call appends to the formula. -/
def emittedClauses (s : CnfFormula) (dnf : List (List Lit)) : List Clause :=
  (addDnf s dnf).clauses.drop s.clauses.length

theorem addDnfAux_spec (dnf : List (List Lit)) :
    ∀ (s : CnfFormula) (helpers : List Lit),
      addDnfAux s dnf helpers =
        ({ nvars := s.nvars + dnf.length,
           clauses := s.clauses ++ implClauses s.nvars dnf },
         helpers ++ helperClause s.nvars dnf.length) := by
  induction dnf with
  | nil => intro s helpers; simp [addDnfAux, implClauses, helperClause]
  | cons product rest ih =>
    intro s helpers
    simp only [addDnfAux, ih, implClauses, helperClause, List.length_cons]
    refine Prod.ext ?_ ?_
    · simp only [CnfFormula.mk.injEq, List.append_assoc]
      refine ⟨by omega, by simp⟩
    · simp

theorem addDnf_nvars (s : CnfFormula) (dnf : List (List Lit)) :
    (addDnf s dnf).nvars = s.nvars + dnf.length := by
  simp [addDnf, addDnfAux_spec]

theorem addDnf_clauses (s : CnfFormula) (dnf : List (List Lit)) :
    (addDnf s dnf).clauses = s.clauses ++ dnfClauses s.nvars dnf := by
  simp [addDnf, addDnfAux_spec, dnfClauses]

theorem emittedClauses_eq (s : CnfFormula) (dnf : List (List Lit)) :
    emittedClauses s dnf = dnfClauses s.nvars dnf := by
  simp [emittedClauses, addDnf_clauses]

theorem helperClause_mem {n0 len i : Nat} (h : i < len) :
    Lit.mk (n0 + i) true ∈ helperClause n0 len := by
  induction len generalizing n0 i with
  | zero => omega
  | succ len ih =>
    cases i with
    | zero => simp [helperClause]
    | succ i =>
      have : Lit.mk (n0 + 1 + i) true ∈ helperClause (n0 + 1) len := ih (by omega)
      simp only [helperClause, List.mem_cons]
      right
      have : n0 + (i + 1) = n0 + 1 + i := by omega
      rw [this]
      assumption

theorem helperClause_mem_inv {n0 len : Nat} {l : Lit} (h : l ∈ helperClause n0 len) :
    ∃ i, i < len ∧ l = Lit.mk (n0 + i) true := by
  induction len generalizing n0 with
  | zero => simp [helperClause] at h
  | succ len ih =>
    simp only [helperClause, List.mem_cons] at h
    rcases h with h | h
    · exact ⟨0, by omega, by simpa using h⟩
    · obtain ⟨i, hi, rfl⟩ := ih h
      exact ⟨i + 1, by omega, by congr 1; omega⟩

theorem implClauses_mem {n0 : Nat} {dnf : List (List Lit)} {i : Nat}
    (hi : i < dnf.length) {term : Lit} (hterm : term ∈ dnf[i]) :
    [Lit.mk (n0 + i) false, term] ∈ implClauses n0 dnf := by
  induction dnf generalizing n0 i with
  | nil => simp at hi
  | cons product rest ih =>
    simp only [implClauses, List.mem_append]
    cases i with
    | zero =>
      left
      simp only [List.getElem_cons_zero] at hterm
      exact List.mem_map.mpr ⟨term, hterm, by simp⟩
    | succ i =>
      right
      have := @ih (n0 + 1) i (by simpa using hi)
        (by simpa using hterm)
      have heq : n0 + 1 + i = n0 + (i + 1) := by omega
      rwa [heq] at this

theorem implClauses_mem_inv {n0 : Nat} {dnf : List (List Lit)} {c : Clause}
    (hc : c ∈ implClauses n0 dnf) :
    ∃ i, ∃ _ : i < dnf.length, ∃ term,
      term ∈ dnf[i] ∧ c = [Lit.mk (n0 + i) false, term] := by
  induction dnf generalizing n0 with
  | nil => simp [implClauses] at hc
  | cons product rest ih =>
    simp only [implClauses, List.mem_append] at hc
    rcases hc with hc | hc
    · obtain ⟨term, hterm, rfl⟩ := List.mem_map.mp hc
      exact ⟨0, by simp, term, by simpa using hterm, by simp⟩
    · obtain ⟨i, hi, term, hterm, rfl⟩ := ih hc
      refine ⟨i + 1, by simpa using hi, term, by simpa using hterm, ?_⟩
      congr 2
      omega

/-- Soundness direction of the Tseitin encoding: in any assignment
satisfying the emitted clauses, some term of the DNF is fully true. -/
theorem dnfClauses_forward {σ : Nat → Bool} {n0 : Nat} {dnf : List (List Lit)}
    (hsat : Formula.sat σ (dnfClauses n0 dnf)) :
    ∃ p ∈ dnf, ∀ l ∈ p, Lit.sat σ l := by
  have hhelp : Clause.sat σ (helperClause n0 dnf.length) :=
    hsat _ (by simp [dnfClauses])
  obtain ⟨hl, hmem, hsl⟩ := hhelp
  obtain ⟨i, hi, rfl⟩ := helperClause_mem_inv hmem
  refine ⟨dnf[i], List.getElem_mem hi, ?_⟩
  intro l hl
  have hcl : Clause.sat σ [Lit.mk (n0 + i) false, l] :=
    hsat _ (by simp only [dnfClauses, List.mem_append]; exact Or.inl (implClauses_mem hi hl))
  obtain ⟨l', hl', hsl'⟩ := hcl
  simp only [List.mem_cons, List.not_mem_nil, or_false] at hl'
  rcases hl' with rfl | rfl
  · exfalso
    simp only [Lit.sat] at hsl hsl'
    simp [hsl] at hsl'
  · exact hsl'

/-- Completeness direction of the Tseitin encoding: if some term of the
DNF is fully true under an assignment of the original variables, the
assignment extends over the fresh helper variables to satisfy all
emitted clauses. -/
theorem dnfClauses_backward {σ0 : Nat → Bool} {n0 : Nat} {dnf : List (List Lit)}
    (hfresh : ∀ p ∈ dnf, ∀ l ∈ p, l.var < n0)
    {i : Nat} (hi : i < dnf.length) (hterm : ∀ l ∈ dnf[i], Lit.sat σ0 l) :
    ∃ σ : Nat → Bool, (∀ v, v < n0 → σ v = σ0 v) ∧ Formula.sat σ (dnfClauses n0 dnf) := by
  refine ⟨fun v => if v < n0 then σ0 v else decide (v = n0 + i), fun v hv => by simp [hv], ?_⟩
  intro c hc
  simp only [dnfClauses, List.mem_append, List.mem_singleton] at hc
  rcases hc with hc | rfl
  · obtain ⟨j, hj, term, htm, rfl⟩ := implClauses_mem_inv hc
    by_cases hij : j = i
    · subst hij
      refine ⟨term, by simp, ?_⟩
      have hlt : term.var < n0 := hfresh _ (List.getElem_mem hj) _ htm
      have := hterm _ htm
      simp only [Lit.sat] at this ⊢
      simp [hlt, this]
    · refine ⟨Lit.mk (n0 + j) false, by simp, ?_⟩
      simp only [Lit.sat]
      have h1 : ¬ (n0 + j < n0) := by omega
      have h2 : ¬ (n0 + j = n0 + i) := by omega
      simp [h1, h2]
  · refine ⟨Lit.mk (n0 + i) true, helperClause_mem hi, ?_⟩
    simp only [Lit.sat]
    have h1 : ¬ (n0 + i < n0) := by omega
    simp [h1]

/-- C1.  DNF-to-CNF equivalence for `add_dnf`: provided the DNF mentions
only already-allocated (non-helper) variables, an assignment of those
variables extends to the freshly allocated helper variables satisfying
every emitted clause if and only if some term of the DNF is fully true;
and for a zero-term DNF the emitted clauses are unconditionally
unsatisfiable. -/
theorem add_dnf_c1 (s : CnfFormula) (dnf : List (List Lit)) (σ0 : Nat → Bool)
    (hfresh : ∀ p ∈ dnf, ∀ l ∈ p, l.var < s.nvars) :
    ((∃ σ : Nat → Bool, (∀ v, v < s.nvars → σ v = σ0 v) ∧
        Formula.sat σ (emittedClauses s dnf)) ↔
      ∃ p ∈ dnf, ∀ l ∈ p, Lit.sat σ0 l) ∧
    (dnf = [] → ∀ σ : Nat → Bool, ¬ Formula.sat σ (emittedClauses s dnf)) := by
  rw [emittedClauses_eq]
  constructor
  · constructor
    · rintro ⟨σ, hagree, hsat⟩
      obtain ⟨p, hp, hall⟩ := dnfClauses_forward hsat
      refine ⟨p, hp, fun l hl => ?_⟩
      have hv : l.var < s.nvars := hfresh p hp l hl
      have := hall l hl
      simpa only [Lit.sat, hagree l.var hv] using this
    · rintro ⟨p, hp, hall⟩
      obtain ⟨i, hi⟩ := List.getElem_of_mem hp
      obtain ⟨hlen, hpi⟩ := hi
      exact dnfClauses_backward hfresh hlen (by rw [hpi]; exact hall)
  · rintro rfl σ hsat
    have : Clause.sat σ (helperClause s.nvars 0) := hsat _ (by simp [dnfClauses])
    simp [helperClause, Clause.sat] at this

/-- Helper for `setRange` carrying the running index. -/
def setRangeGo (start len : Nat) (v : Bool) : Nat → List Bool → List Bool
  | _, [] => []
  | i, b :: rest =>
    (if start ≤ i ∧ i < start + len then v else b) :: setRangeGo start len v (i + 1) rest

/-- Functional rendering of the Rust in-place writes
`for b in &mut r[start..start+len] { *b = v }` used by `choice.rs`. -/
def setRange (l : List Bool) (start len : Nat) (v : Bool) : List Bool :=
  setRangeGo start len v 0 l

/-- The successor function `advance` of `util/choice.rs`: scanning the
indicator sequence from the end, find the first zero, then the next one
before it, move that one onto the zero position, clear everything after,
and re-pack the remaining ones immediately after the moved one. -/
def advance (state : List Bool) : Option (List Bool) :=
  let seek := state.enum.reverse
  match seek.dropWhile (fun q => q.2) with
  | [] => none
  | z :: rest2 =>
    match rest2.dropWhile (fun q => !q.2) with
    | [] => none
    | o :: _ =>
      let zpos := z.1
      let opos := o.1
      let tail := state.length - zpos
      let r := state.set opos false
      let r := setRange r (zpos + 1) (state.length - (zpos + 1)) false
      let r := setRange r (opos + 1) tail true
      some r

/-- Source `Choose::new` of `util/choice.rs`: the initial state has the first
`k` positions true; `k > n` yields an already-exhausted iterator. -/
def Choose.new (n k : Nat) : Option (List Bool) :=
  if k > n then none
  else some (setRange (List.replicate n false) 0 k true)

/-- Fuel-bounded unfolding of the `Iterator` implementation of `Choose`:
yield the current state, then continue from its successor.  The fuel
`2 ^ n` used by `chooseList` is proved sufficient below. -/
def chooseRunFuel : Nat → List Bool → List (List Bool)
  | 0, _ => []
  | fuel + 1, st =>
    st :: (match advance st with
           | none => []
           | some r => chooseRunFuel fuel r)

/-- The collected output of the iterator `Choose::new(n, k)`. -/
def chooseList (n k : Nat) : List (List Bool) :=
  match Choose.new n k with
  | none => []
  | some st => chooseRunFuel (2 ^ n) st

/-- Source `choose_acc` of `util/mod.rs`: recursive enumeration of all length-n
indicator sequences with k ones, true-branch first, collecting the
callback results in order. -/
def choose_acc : List Bool → Nat → Nat → List (List Bool)
  | acc, 0, _ => [acc]
  | acc, n + 1, k =>
    (if k > 0 then choose_acc (acc ++ [true]) n (k - 1) else []) ++
    (if k < n + 1 then choose_acc (acc ++ [false]) n k else [])

/-- Source `choices` of `util/mod.rs`: the recursive enumerator run from an
empty accumulator. -/
def choices (n k : Nat) : List (List Bool) := choose_acc [] n k

example : chooseList 5 2 =
    [[true, true, false, false, false],
     [true, false, true, false, false],
     [true, false, false, true, false],
     [true, false, false, false, true],
     [false, true, true, false, false],
     [false, true, false, true, false],
     [false, true, false, false, true],
     [false, false, true, true, false],
     [false, false, true, false, true],
     [false, false, false, true, true]] := by decide

example : choices 5 2 = chooseList 5 2 := by decide
example : choices 5 0 = [[false, false, false, false, false]] := by decide
example : chooseList 4 3 = choices 4 3 := by decide
example : chooseList 3 4 = [] := by decide

theorem setRangeGo_length (start len : Nat) (v : Bool) :
    ∀ (i : Nat) (l : List Bool), (setRangeGo start len v i l).length = l.length := by
  intro i l
  induction l generalizing i with
  | nil => rfl
  | cons b rest ih => simp [setRangeGo, ih]

theorem setRangeGo_append (start len : Nat) (v : Bool) :
    ∀ (l₁ l₂ : List Bool) (i : Nat),
      setRangeGo start len v i (l₁ ++ l₂) =
        setRangeGo start len v i l₁ ++ setRangeGo start len v (i + l₁.length) l₂ := by
  intro l₁
  induction l₁ with
  | nil => simp [setRangeGo]
  | cons b rest ih =>
    intro l₂ i
    simp only [List.cons_append, setRangeGo, List.length_cons, List.append_eq]
    rw [ih l₂ (i + 1)]
    have : i + (rest.length + 1) = i + 1 + rest.length := by omega
    rw [this]

theorem setRangeGo_before (start len : Nat) (v : Bool) :
    ∀ (l : List Bool) (i : Nat), i + l.length ≤ start → setRangeGo start len v i l = l := by
  intro l
  induction l with
  | nil => intro i _; rfl
  | cons b rest ih =>
    intro i h
    simp only [List.length_cons] at h
    have h1 : ¬ (start ≤ i ∧ i < start + len) := by omega
    simp only [setRangeGo, if_neg h1]
    rw [ih (i + 1) (by omega)]

theorem setRangeGo_after (start len : Nat) (v : Bool) :
    ∀ (l : List Bool) (i : Nat), start + len ≤ i → setRangeGo start len v i l = l := by
  intro l
  induction l with
  | nil => intro i _; rfl
  | cons b rest ih =>
    intro i h
    have h1 : ¬ (start ≤ i ∧ i < start + len) := by omega
    simp only [setRangeGo, if_neg h1]
    rw [ih (i + 1) (by omega)]

theorem setRangeGo_inside (start len : Nat) (v : Bool) :
    ∀ (l : List Bool) (i : Nat), start ≤ i → i + l.length ≤ start + len →
      setRangeGo start len v i l = List.replicate l.length v := by
  intro l
  induction l with
  | nil => intro i _ _; rfl
  | cons b rest ih =>
    intro i h1 h2
    simp only [List.length_cons] at h2
    have hcond : start ≤ i ∧ i < start + len := by omega
    simp only [setRangeGo, if_pos hcond, List.length_cons, List.replicate_succ]
    rw [ih (i + 1) (by omega) (by omega)]

theorem snd_of_mem_enumFrom_replicate {b : Bool} :
    ∀ (k n : Nat) (x : Nat × Bool), x ∈ (List.replicate k b).enumFrom n → x.2 = b := by
  intro k
  induction k with
  | zero => intro n x hx; simp [List.enumFrom] at hx
  | succ k ih =>
    intro n x hx
    rw [List.replicate_succ, List.enumFrom_cons] at hx
    rcases List.mem_cons.mp hx with rfl | hx
    · rfl
    · exact ih (n + 1) x hx

theorem dropWhile_eq_nil_of_all {α : Type} {p : α → Bool} :
    ∀ {l : List α}, (∀ x ∈ l, p x = true) → l.dropWhile p = [] := by
  intro l
  induction l with
  | nil => intro _; rfl
  | cons a rest ih =>
    intro h
    rw [List.dropWhile_cons, if_pos (h a (by simp))]
    exact ih (fun x hx => h x (by simp [hx]))

theorem dropWhile_append_of_all {α : Type} {p : α → Bool} {l₁ l₂ : List α}
    (h : ∀ x ∈ l₁, p x = true) :
    (l₁ ++ l₂).dropWhile p = l₂.dropWhile p := by
  induction l₁ with
  | nil => simp
  | cons a rest ih =>
    rw [List.cons_append, List.dropWhile_cons, if_pos (h a (by simp))]
    exact ih (fun x hx => h x (by simp [hx]))

theorem set_append_length (v : Bool) :
    ∀ (p : List Bool) (x : Bool) (X : List Bool), (p ++ x :: X).set p.length v = p ++ v :: X := by
  intro p
  induction p with
  | nil => intro x X; rfl
  | cons b rest ih => intro x X; simp [List.set, ih]

theorem setRangeGo_cons (start len : Nat) (v b : Bool) (i : Nat) (l : List Bool) :
    setRangeGo start len v i (b :: l) =
      (if start ≤ i ∧ i < start + len then v else b) :: setRangeGo start len v (i + 1) l := rfl

/-- Action of `advance` on a state of the shape
`p ++ [1] ++ 0^f ++ [0] ++ 1^t`: the final `1` before the last `0` moves
right, and the `t` trailing ones re-pack immediately after it. -/
theorem advance_shape (p : List Bool) (f t : Nat) :
    advance (p ++ true :: (List.replicate f false ++ false :: List.replicate t true)) =
      some (p ++ false :: (List.replicate (t + 1) true ++ List.replicate f false)) := by
  have henum : (p ++ true :: (List.replicate f false ++ false :: List.replicate t true)).enum
      = List.enumFrom 0 p ++ (p.length, true) ::
          (List.enumFrom (p.length + 1) (List.replicate f false) ++
            (p.length + 1 + f, false) ::
              List.enumFrom (p.length + 1 + f + 1) (List.replicate t true)) := by
    rw [show (p ++ true :: (List.replicate f false ++ false :: List.replicate t true)).enum
        = List.enumFrom 0 (p ++ true :: (List.replicate f false ++ false :: List.replicate t true))
        from rfl]
    rw [List.enumFrom_append, List.enumFrom_cons, List.enumFrom_append, List.enumFrom_cons]
    simp
  have hdw1 : ((p ++ true :: (List.replicate f false ++ false :: List.replicate t true)).enum.reverse).dropWhile
        (fun q => q.2)
      = (p.length + 1 + f, false) ::
          ((List.enumFrom (p.length + 1) (List.replicate f false)).reverse ++
            (p.length, true) :: (List.enumFrom 0 p).reverse) := by
    rw [henum]
    simp only [List.reverse_append, List.reverse_cons, List.append_assoc, List.singleton_append,
      List.cons_append, List.nil_append]
    rw [dropWhile_append_of_all
      (fun x hx => snd_of_mem_enumFrom_replicate _ _ x (List.mem_reverse.mp hx))]
    rw [List.dropWhile_cons]
    simp
  have hdw2 : (((List.enumFrom (p.length + 1) (List.replicate f false)).reverse ++
        (p.length, true) :: (List.enumFrom 0 p).reverse)).dropWhile (fun q => !q.2)
      = (p.length, true) :: (List.enumFrom 0 p).reverse := by
    rw [dropWhile_append_of_all
      (fun x hx => by
        have := snd_of_mem_enumFrom_replicate _ _ x (List.mem_reverse.mp hx)
        simp [this])]
    rw [List.dropWhile_cons]
    simp
  have hlen : (p ++ true :: (List.replicate f false ++ false :: List.replicate t true)).length
      = p.length + 1 + f + 1 + t := by
    simp
    omega
  have hset : (p ++ true :: (List.replicate f false ++ false :: List.replicate t true)).set
        p.length false
      = p ++ false :: (List.replicate f false ++ false :: List.replicate t true) :=
    set_append_length false p true _
  have h2 : setRange (p ++ false :: (List.replicate f false ++ false :: List.replicate t true))
        (p.length + 1 + f + 1) t false
      = p ++ false :: (List.replicate f false ++ false :: List.replicate t false) := by
    unfold setRange
    rw [setRangeGo_append, setRangeGo_before _ _ _ _ _ (by omega), setRangeGo_cons]
    rw [if_neg (by omega)]
    rw [setRangeGo_append,
      setRangeGo_before _ _ _ _ _ (by simp only [List.length_replicate]; omega),
      setRangeGo_cons]
    rw [if_neg (by simp only [List.length_replicate]; omega)]
    rw [setRangeGo_inside _ _ _ _ _ (by simp only [List.length_replicate]; omega)
      (by simp only [List.length_replicate]; omega)]
    simp
  have h3 : setRange (p ++ false :: (List.replicate f false ++ false :: List.replicate t false))
        (p.length + 1) (t + 1) true
      = p ++ false :: (List.replicate (t + 1) true ++ List.replicate f false) := by
    have hmerge : List.replicate f false ++ false :: List.replicate t false
        = List.replicate ((t + 1) + f) false := by
      rw [show false :: List.replicate t false = List.replicate (t + 1) false from rfl]
      rw [← List.replicate_add]
      congr 1
      omega
    rw [hmerge, List.replicate_add]
    unfold setRange
    rw [setRangeGo_append, setRangeGo_before _ _ _ _ _ (by omega), setRangeGo_cons]
    rw [if_neg (by omega)]
    rw [setRangeGo_append,
      setRangeGo_inside _ _ _ _ _ (by omega) (by simp),
      setRangeGo_after _ _ _ _ _ (by simp only [List.length_replicate]; omega)]
    simp
  simp only [advance]
  rw [hdw1]
  simp only [hdw2, hlen, hset]
  rw [show p.length + 1 + f + 1 + t - (p.length + 1 + f + 1) = t from by omega,
    show p.length + 1 + f + 1 + t - (p.length + 1 + f) = t + 1 from by omega]
  rw [h2, h3]

theorem dropWhile_eq_self_of_all {α : Type} {p : α → Bool} :
    ∀ {l : List α}, (∀ x ∈ l, p x = false) → l.dropWhile p = l := by
  intro l h
  cases l with
  | nil => rfl
  | cons a rest => rw [List.dropWhile_cons, if_neg (by simp [h a (by simp)])]

/-- Action of `advance` on a state of the shape `0^a ++ 1^b`: no one
remains before the last zero, so the enumeration is exhausted. -/
theorem advance_flat (a b : Nat) :
    advance (List.replicate a false ++ List.replicate b true) = none := by
  have henum : (List.replicate a false ++ List.replicate b true).enum
      = List.enumFrom 0 (List.replicate a false) ++ List.enumFrom a (List.replicate b true) := by
    rw [show (List.replicate a false ++ List.replicate b true).enum
        = List.enumFrom 0 (List.replicate a false ++ List.replicate b true) from rfl,
      List.enumFrom_append]
    simp
  have hdrop : ((List.replicate a false ++ List.replicate b true).enum.reverse).dropWhile
        (fun q => q.2)
      = (List.enumFrom 0 (List.replicate a false)).reverse := by
    rw [henum, List.reverse_append]
    rw [dropWhile_append_of_all
      (fun x hx => snd_of_mem_enumFrom_replicate _ _ x (List.mem_reverse.mp hx))]
    exact dropWhile_eq_self_of_all
      (fun x hx => by
        have := snd_of_mem_enumFrom_replicate _ _ x (List.mem_reverse.mp hx)
        simp [this])
  simp only [advance]
  rw [hdrop]
  cases a with
  | zero => simp [List.enumFrom]
  | succ a' =>
    have hsplit : List.replicate (a' + 1) false = List.replicate a' false ++ [false] :=
      List.replicate_succ' a' false
    rw [hsplit, List.enumFrom_append, List.reverse_append]
    simp only [List.enumFrom_cons, List.enumFrom_nil, List.length_replicate,
      List.reverse_cons, List.reverse_nil, List.nil_append, List.singleton_append]
    rw [dropWhile_eq_nil_of_all
      (fun x hx => by
        have := snd_of_mem_enumFrom_replicate _ _ x (List.mem_reverse.mp hx)
        simp [this])]

/-- Every boolean list either has no one before its last zero
(`0^a ++ 1^b`, where `advance` is exhausted) or decomposes around the
last such one and zero. -/
theorem bool_list_decomp (l : List Bool) :
    (∃ a b, l = List.replicate a false ++ List.replicate b true) ∨
    (∃ p f t, l = p ++ true :: (List.replicate f false ++ false :: List.replicate t true)) := by
  induction l using List.reverseRecOn with
  | nil => exact Or.inl ⟨0, 0, rfl⟩
  | append_singleton l x ih =>
    cases x with
    | true =>
      rcases ih with ⟨a, b, rfl⟩ | ⟨p, f, t, rfl⟩
      · exact Or.inl ⟨a, b + 1, by simp [List.replicate_succ', List.append_assoc]⟩
      · exact Or.inr ⟨p, f, t + 1, by simp [List.replicate_succ', List.append_assoc]⟩
    | false =>
      rcases ih with ⟨a, b, rfl⟩ | ⟨p, f, t, rfl⟩
      · cases b with
        | zero => exact Or.inl ⟨a + 1, 0, by simp [List.replicate_succ', List.append_assoc]⟩
        | succ b =>
          refine Or.inr ⟨List.replicate a false ++ List.replicate b true, 0, 0, ?_⟩
          simp [List.replicate_succ', List.append_assoc]
      · cases t with
        | zero => exact Or.inr ⟨p, f + 1, 0, by simp [List.replicate_succ', List.append_assoc]⟩
        | succ t =>
          refine Or.inr ⟨p ++ true :: (List.replicate f false ++ false :: List.replicate t true),
            0, 0, ?_⟩
          simp [List.replicate_succ', List.append_assoc]

theorem advance_eq_some_elim {x y : List Bool} (h : advance x = some y) :
    ∃ p f t, x = p ++ true :: (List.replicate f false ++ false :: List.replicate t true) ∧
      y = p ++ false :: (List.replicate (t + 1) true ++ List.replicate f false) := by
  rcases bool_list_decomp x with ⟨a, b, rfl⟩ | ⟨p, f, t, rfl⟩
  · rw [advance_flat] at h
    cases h
  · refine ⟨p, f, t, rfl, ?_⟩
    rw [advance_shape] at h
    exact (Option.some.inj h).symm

theorem advance_cons {x y : List Bool} (c : Bool) (h : advance x = some y) :
    advance (c :: x) = some (c :: y) := by
  obtain ⟨p, f, t, rfl, rfl⟩ := advance_eq_some_elim h
  have := advance_shape (c :: p) f t
  simpa using this

theorem choose_acc_eq_map (n : Nat) :
    ∀ (k : Nat) (acc : List Bool), choose_acc acc n k = (choices n k).map (fun x => acc ++ x) := by
  induction n with
  | zero => intro k acc; simp [choices, choose_acc]
  | succ n ih =>
    intro k acc
    rw [show choose_acc acc (n + 1) k
        = (if k > 0 then choose_acc (acc ++ [true]) n (k - 1) else []) ++
          (if k < n + 1 then choose_acc (acc ++ [false]) n k else []) from rfl]
    rw [show choices (n + 1) k
        = (if k > 0 then choose_acc ([] ++ [true]) n (k - 1) else []) ++
          (if k < n + 1 then choose_acc ([] ++ [false]) n k else []) from rfl]
    rw [List.map_append]
    congr 1
    · by_cases hk : k > 0
      · rw [if_pos hk, if_pos hk, ih, ih, List.map_map]
        simp [Function.comp_def, List.append_assoc]
      · simp [hk]
    · by_cases hk2 : k < n + 1
      · rw [if_pos hk2, if_pos hk2, ih, ih, List.map_map]
        simp [Function.comp_def, List.append_assoc]
      · simp [hk2]

theorem choices_succ (n k : Nat) :
    choices (n + 1) k =
      (if k > 0 then (choices n (k - 1)).map (fun x => true :: x) else []) ++
      (if k < n + 1 then (choices n k).map (fun x => false :: x) else []) := by
  rw [show choices (n + 1) k
      = (if k > 0 then choose_acc ([] ++ [true]) n (k - 1) else []) ++
        (if k < n + 1 then choose_acc ([] ++ [false]) n k else []) from rfl]
  congr 1
  · by_cases hk : k > 0
    · rw [if_pos hk, if_pos hk, choose_acc_eq_map]
      simp
    · simp [hk]
  · by_cases hk2 : k < n + 1
    · rw [if_pos hk2, if_pos hk2, choose_acc_eq_map]
      simp
    · simp [hk2]

theorem choices_mem {n : Nat} :
    ∀ {k : Nat}, k ≤ n → ∀ x ∈ choices n k, x.length = n ∧ x.countP (fun b => b) = k := by
  induction n with
  | zero =>
    intro k hk x hx
    interval_cases k
    simp [choices, choose_acc] at hx
    simp [hx]
  | succ n ih =>
    intro k hk x hx
    rw [choices_succ] at hx
    rcases List.mem_append.mp hx with hx | hx
    · rcases Nat.eq_zero_or_pos k with rfl | hkpos
      · simp at hx
      · rw [if_pos hkpos] at hx
        obtain ⟨y, hy, rfl⟩ := List.mem_map.mp hx
        obtain ⟨hl, hc⟩ := ih (k := k - 1) (by omega) y hy
        constructor
        · simp [hl]
        · simp only [List.countP_cons, hc]
          simp
          omega
    · rcases Nat.lt_or_ge k (n + 1) with hklt | hkge
      · rw [if_pos hklt] at hx
        obtain ⟨y, hy, rfl⟩ := List.mem_map.mp hx
        obtain ⟨hl, hc⟩ := ih (k := k) (by omega) y hy
        constructor
        · simp [hl]
        · simp only [List.countP_cons, hc]
          simp
      · rw [if_neg (by omega)] at hx
        simp at hx

theorem choices_ne_nil {n : Nat} : ∀ {k : Nat}, k ≤ n → choices n k ≠ [] := by
  induction n with
  | zero =>
    intro k hk
    interval_cases k
    simp [choices, choose_acc]
  | succ n ih =>
    intro k hk
    rw [choices_succ]
    rcases Nat.eq_zero_or_pos k with rfl | hkpos
    · have := ih (k := 0) (by omega)
      simp [this]
    · have := ih (k := k - 1) (by omega)
      simp only [if_pos hkpos]
      intro hcon
      rcases List.append_eq_nil.mp hcon with ⟨h1, _⟩
      exact this (List.map_eq_nil.mp h1)

theorem option_some_or {α : Type} (a : α) (x : Option α) : (some a).or x = some a := rfl

theorem choices_head {n : Nat} :
    ∀ {k : Nat}, k ≤ n →
      (choices n k).head? = some (List.replicate k true ++ List.replicate (n - k) false) := by
  induction n with
  | zero =>
    intro k hk
    interval_cases k
    simp [choices, choose_acc]
  | succ n ih =>
    intro k hk
    rw [choices_succ]
    rcases Nat.eq_zero_or_pos k with rfl | hkpos
    · rw [if_neg (by omega : ¬ ((0 : Nat) > 0)), if_pos (Nat.succ_pos n), List.nil_append]
      rw [List.head?_map, ih (k := 0) (by omega)]
      simp [List.replicate_succ]
    · rw [if_pos hkpos, List.head?_append, List.head?_map, ih (k := k - 1) (by omega)]
      simp only [Option.map_some', option_some_or]
      congr 1
      have hrep : List.replicate k true = true :: List.replicate (k - 1) true := by
        cases k with
        | zero => omega
        | succ k => simp [List.replicate_succ]
      rw [hrep]
      have harith : n - (k - 1) = n + 1 - k := by omega
      rw [harith]
      simp

theorem choices_getLast {n : Nat} :
    ∀ {k : Nat}, k ≤ n →
      (choices n k).getLast? = some (List.replicate (n - k) false ++ List.replicate k true) := by
  induction n with
  | zero =>
    intro k hk
    interval_cases k
    simp [choices, choose_acc]
  | succ n ih =>
    intro k hk
    rw [choices_succ]
    rcases Nat.lt_or_ge k (n + 1) with hklt | hkge
    · rw [if_pos hklt, List.getLast?_append, List.getLast?_map, ih (k := k) (by omega)]
      simp only [Option.map_some', option_some_or]
      congr 1
      have : n + 1 - k = (n - k) + 1 := by omega
      rw [this, List.replicate_succ]
      simp
    · have hkeq : k = n + 1 := by omega
      subst hkeq
      simp only [Nat.add_sub_cancel]
      rw [if_pos (by omega : n + 1 > 0), if_neg (by omega : ¬ (n + 1 < n + 1)),
        List.append_nil, List.getLast?_map, ih (k := n) (by omega)]
      simp [List.replicate_succ]

theorem choices_chain {n : Nat} :
    ∀ {k : Nat}, k ≤ n → List.Chain' (fun x y => advance x = some y) (choices n k) := by
  induction n with
  | zero =>
    intro k hk
    interval_cases k
    simp [choices, choose_acc]
  | succ n ih =>
    intro k hk
    rw [choices_succ]
    rcases Nat.eq_zero_or_pos k with rfl | hkpos
    · rw [if_neg (by omega : ¬ ((0 : Nat) > 0)), List.nil_append, if_pos (Nat.succ_pos n),
        List.chain'_map]
      exact (ih (k := 0) (by omega)).imp (fun a b h => advance_cons false h)
    · rcases Nat.lt_or_ge k (n + 1) with hklt | hkge
      · rw [if_pos hkpos, if_pos hklt]
        refine List.chain'_append.mpr ⟨?_, ?_, ?_⟩
        · rw [List.chain'_map]
          exact (ih (k := k - 1) (by omega)).imp (fun a b h => advance_cons true h)
        · rw [List.chain'_map]
          exact (ih (k := k) (by omega)).imp (fun a b h => advance_cons false h)
        · intro x hx y hy
          rw [List.getLast?_map, choices_getLast (by omega : k - 1 ≤ n)] at hx
          rw [List.head?_map, choices_head (by omega : k ≤ n)] at hy
          simp only [Option.map_some', Option.mem_def, Option.some.injEq] at hx hy
          subst hx
          subst hy
          have hx2 : n - (k - 1) = (n - k) + 1 := by omega
          have hy2 : k - 1 + 1 = k := by omega
          have hshape := advance_shape [] (n - k) (k - 1)
          rw [hy2] at hshape
          simpa [hx2, List.replicate_succ', List.append_assoc] using hshape
      · have hkeq : k = n + 1 := by omega
        subst hkeq
        rw [if_pos (by omega : n + 1 > 0), if_neg (by omega : ¬ (n + 1 < n + 1)),
          List.append_nil]
        simp only [Nat.add_sub_cancel]
        rw [List.chain'_map]
        exact (ih (k := n) (by omega)).imp (fun a b h => advance_cons true h)

theorem choices_length {n : Nat} :
    ∀ {k : Nat}, k ≤ n → (choices n k).length = n.choose k := by
  induction n with
  | zero =>
    intro k hk
    interval_cases k
    simp [choices, choose_acc]
  | succ n ih =>
    intro k hk
    rw [choices_succ, List.length_append]
    rcases Nat.eq_zero_or_pos k with rfl | hkpos
    · rw [if_neg (by omega : ¬ ((0 : Nat) > 0)), if_pos (Nat.succ_pos n)]
      simp [ih (k := 0) (by omega)]
    · rcases Nat.lt_or_ge k (n + 1) with hklt | hkge
      · rw [if_pos hkpos, if_pos hklt]
        simp only [List.length_map]
        rw [ih (k := k - 1) (by omega), ih (k := k) (by omega)]
        cases k with
        | zero => omega
        | succ k' =>
          simp only [Nat.add_sub_cancel]
          rw [Nat.choose_succ_succ]
      · have hkeq : k = n + 1 := by omega
        subst hkeq
        rw [if_pos (by omega : n + 1 > 0), if_neg (by omega : ¬ (n + 1 < n + 1))]
        simp only [List.length_map, List.length_nil, Nat.add_sub_cancel]
        rw [ih (k := n) (by omega)]
        simp [Nat.choose_self]

theorem choices_nodup {n : Nat} :
    ∀ {k : Nat}, k ≤ n → (choices n k).Nodup := by
  induction n with
  | zero =>
    intro k hk
    interval_cases k
    simp [choices, choose_acc]
  | succ n ih =>
    intro k hk
    rw [choices_succ]
    have h1 : (if k > 0 then (choices n (k - 1)).map (fun x => true :: x) else []).Nodup := by
      by_cases hk0 : k > 0
      · rw [if_pos hk0]
        exact List.Nodup.map (fun a b hab => by simpa using hab) (ih (k := k - 1) (by omega))
      · simp [hk0]
    have h2 : (if k < n + 1 then (choices n k).map (fun x => false :: x) else []).Nodup := by
      by_cases hkn : k < n + 1
      · rw [if_pos hkn]
        exact List.Nodup.map (fun a b hab => by simpa using hab) (ih (k := k) (by omega))
      · simp [hkn]
    refine List.Nodup.append h1 h2 ?_
    intro a ha hb
    by_cases hk0 : k > 0
    · rw [if_pos hk0] at ha
      obtain ⟨y, _, rfl⟩ := List.mem_map.mp ha
      by_cases hkn : k < n + 1
      · rw [if_pos hkn] at hb
        obtain ⟨z, _, hz⟩ := List.mem_map.mp hb
        cases hz
      · simp [hkn] at hb
    · simp [hk0] at ha

theorem chooseRunFuel_of_chain :
    ∀ (L : List (List Bool)) (x : List Bool) (fuel : Nat),
      List.Chain' (fun u v => advance u = some v) (x :: L) →
      (∀ g ∈ (x :: L).getLast?, advance g = none) →
      L.length < fuel →
      chooseRunFuel fuel x = x :: L := by
  intro L
  induction L with
  | nil =>
    intro x fuel _ hlast hfuel
    cases fuel with
    | zero => omega
    | succ fuel =>
      have hx : advance x = none := hlast x (by simp)
      simp [chooseRunFuel, hx]
  | cons y L ih =>
    intro x fuel hchain hlast hfuel
    cases fuel with
    | zero => omega
    | succ fuel =>
      have h1 : advance x = some y := (List.chain'_cons.mp hchain).1
      have h2 := ih y fuel (List.chain'_cons.mp hchain).2
        (by
          intro g hg
          exact hlast g (by rw [List.getLast?_cons_cons]; exact hg))
        (by simp only [List.length_cons] at hfuel; omega)
      simp [chooseRunFuel, h1, h2]

theorem setRange_init {n k : Nat} (h : k ≤ n) :
    setRange (List.replicate n false) 0 k true
      = List.replicate k true ++ List.replicate (n - k) false := by
  have hsplit : List.replicate n false
      = List.replicate k false ++ List.replicate (n - k) false := by
    rw [← List.replicate_add]
    congr 1
    omega
  rw [hsplit]
  unfold setRange
  rw [setRangeGo_append, setRangeGo_inside _ _ _ _ _ (by omega) (by simp),
    setRangeGo_after _ _ _ _ _ (by simp only [List.length_replicate]; omega)]
  simp

/-- For `k ≤ n` the lazy iterator of `choice.rs` and the recursive
enumerator `choices` of `util/mod.rs` produce the same list. -/
theorem chooseList_eq_choices {n k : Nat} (h : k ≤ n) : chooseList n k = choices n k := by
  have hinit : Choose.new n k
      = some (List.replicate k true ++ List.replicate (n - k) false) := by
    unfold Choose.new
    rw [if_neg (by omega)]
    rw [setRange_init h]
  have hne := choices_ne_nil h
  have hhead := choices_head h
  obtain ⟨L, hL⟩ : ∃ L, choices n k
      = (List.replicate k true ++ List.replicate (n - k) false) :: L := by
    cases hcl : choices n k with
    | nil => exact absurd hcl hne
    | cons a L =>
      rw [hcl] at hhead
      simp only [List.head?_cons, Option.some.injEq] at hhead
      exact ⟨L, by rw [hhead]⟩
  have hchain := choices_chain h
  have hlast := choices_getLast h
  have hlen := choices_length h
  have hchoosele : n.choose k ≤ 2 ^ n := by
    have hle : n.choose k ≤ ∑ i ∈ Finset.range (n + 1), n.choose i :=
      Finset.single_le_sum (fun i _ => Nat.zero_le _) (Finset.mem_range.mpr (by omega))
    rwa [Nat.sum_range_choose] at hle
  simp only [chooseList, hinit]
  rw [hL]
  refine chooseRunFuel_of_chain L _ (2 ^ n) (by rw [← hL]; exact hchain) ?_ ?_
  · intro g hg
    rw [← hL, hlast] at hg
    simp only [Option.mem_def, Option.some.injEq] at hg
    subst hg
    exact advance_flat (n - k) k
  · have : (choices n k).length = L.length + 1 := by rw [hL]; simp
    omega

theorem chooseList_of_gt {n k : Nat} (h : n < k) : chooseList n k = [] := by
  simp [chooseList, Choose.new, h]

theorem choices_zero (n : Nat) : choices n 0 = [List.replicate n false] := by
  induction n with
  | zero => simp [choices, choose_acc]
  | succ n ih =>
    rw [choices_succ, if_neg (by omega : ¬ ((0 : Nat) > 0)), List.nil_append,
      if_pos (Nat.succ_pos n), ih]
    simp [List.replicate_succ]

theorem choices_full (n : Nat) : choices n n = [List.replicate n true] := by
  induction n with
  | zero => simp [choices, choose_acc]
  | succ n ih =>
    rw [choices_succ, if_pos (by omega : n + 1 > 0), if_neg (by omega : ¬ (n + 1 < n + 1)),
      List.append_nil]
    simp only [Nat.add_sub_cancel]
    rw [ih]
    simp [List.replicate_succ]

theorem chooseList_mem {n k : Nat} :
    ∀ ch ∈ chooseList n k, ch.length = n ∧ ch.countP (fun b => b) = k := by
  intro ch hch
  rcases le_or_lt k n with h | h
  · rw [chooseList_eq_choices h] at hch
    exact choices_mem h ch hch
  · rw [chooseList_of_gt h] at hch
    cases hch

/-- C6.  The combination enumerator `Choose::new(n, k)`, collected,
yields exactly `C(n, k)` pairwise-distinct indicator sequences, each of
length `n` with exactly `k` true positions; for `k = 0` exactly the one
all-false sequence, for `k = n` exactly the one all-true sequence, and
for any `k > n` no sequences at all. -/
theorem choose_new_c6 (n k j : Nat) :
    (chooseList n k).length = n.choose k ∧
    (chooseList n k).Nodup ∧
    (∀ ch ∈ chooseList n k, ch.length = n ∧ ch.countP (fun b => b) = k) ∧
    chooseList n 0 = [List.replicate n false] ∧
    chooseList n n = [List.replicate n true] ∧
    chooseList n (n + 1 + j) = [] := by
  refine ⟨?_, ?_, chooseList_mem, ?_, ?_, ?_⟩
  · rcases le_or_lt k n with h | h
    · rw [chooseList_eq_choices h]
      exact choices_length h
    · rw [chooseList_of_gt h, Nat.choose_eq_zero_of_lt h]
      rfl
  · rcases le_or_lt k n with h | h
    · rw [chooseList_eq_choices h]
      exact choices_nodup h
    · rw [chooseList_of_gt h]
      exact List.nodup_nil
  · rw [chooseList_eq_choices (Nat.zero_le n), choices_zero]
  · rw [chooseList_eq_choices (le_refl n), choices_full]
  · exact chooseList_of_gt (by omega)

theorem choose_new_c6_witness :
    (chooseList 5 2).length = Nat.choose 5 2 ∧ chooseList 5 0 = [List.replicate 5 false] :=
  ⟨(choose_new_c6 5 2 0).1, (choose_new_c6 5 2 0).2.2.2.1⟩

/-- C10.  The two combination enumerators agree: for every `k ≤ n` the
collected output of the lazy iterator `Choose::new(n, k)` equals, in
order, the output of the recursive callback enumerator `choices(n, k)`. -/
theorem choose_refines_choices_c10 (n k : Nat) (h : k ≤ n) : chooseList n k = choices n k :=
  chooseList_eq_choices h

theorem choose_refines_choices_c10_witness : chooseList 5 2 = choices 5 2 :=
  choose_refines_choices_c10 5 2 (by decide)

/-- Source `DnfFormula::add_popcount` of `util/solve.rs`: one DNF term per
size-k combination of the variables, asserting the chosen positions
positive and the others negative, fed to `add_dnf`. -/
def CnfFormula.add_popcount (s : CnfFormula) (vars : List Nat) (k : Nat) : CnfFormula :=
  addDnf s ((chooseList vars.length k).map
    (fun ch => (ch.zip vars).map (fun bv => Lit.mk bv.2 bv.1)))

theorem countP_eq_of_zip (σ : Nat → Bool) :
    ∀ (ch : List Bool) (vars : List Nat), ch.length = vars.length →
      (∀ q ∈ ch.zip vars, σ q.2 = q.1) →
      vars.countP (fun v => σ v) = ch.countP (fun b => b) := by
  intro ch
  induction ch with
  | nil =>
    intro vars hlen _
    cases vars with
    | nil => simp
    | cons v vars => simp at hlen
  | cons b ch ih =>
    intro vars hlen hq
    cases vars with
    | nil => simp at hlen
    | cons v vars =>
      have hv : σ v = b := hq (b, v) (by simp)
      have hrec := ih vars (by simpa using hlen) (fun q hqq => hq q (by simp [hqq]))
      simp [List.countP_cons, hrec, hv]

/-- C5.  After `add_popcount(vars, k)`, every assignment satisfying the
clauses of the resulting formula makes exactly `k` of the supplied
variables true: the satisfied DNF term corresponds to one size-k
combination, which fixes every variable to its indicator value. -/
theorem add_popcount_c5 (s : CnfFormula) (vars : List Nat) (k : Nat) (σ : Nat → Bool)
    (hsat : Formula.sat σ (s.add_popcount vars k).clauses) :
    vars.countP (fun v => σ v) = k := by
  rw [CnfFormula.add_popcount, addDnf_clauses] at hsat
  have hsat2 : Formula.sat σ (dnfClauses s.nvars
      ((chooseList vars.length k).map
        (fun ch => (ch.zip vars).map (fun bv => Lit.mk bv.2 bv.1)))) :=
    fun c hc => hsat c (by simp [hc])
  obtain ⟨p, hp, hall⟩ := dnfClauses_forward hsat2
  obtain ⟨ch, hch, rfl⟩ := List.mem_map.mp hp
  obtain ⟨hlen, hcount⟩ := chooseList_mem ch hch
  rw [← hcount]
  refine countP_eq_of_zip σ ch vars (by rw [hlen]) ?_
  intro q hq
  have hmem : Lit.mk q.2 q.1 ∈ (ch.zip vars).map (fun bv => Lit.mk bv.2 bv.1) :=
    List.mem_map.mpr ⟨q, hq, rfl⟩
  have := hall _ hmem
  simpa [Lit.sat] using this

theorem add_popcount_c5_witness :
    Formula.sat (fun v => decide (v = 0 ∨ v = 2))
        ((CnfFormula.mk 2 []).add_popcount [0, 1] 1).clauses ∧
      List.countP (fun v => (fun w => decide (w = 0 ∨ w = 2)) v) [0, 1] = 1 :=
  ⟨by decide, add_popcount_c5 (CnfFormula.mk 2 []) [0, 1] 1 _ (by decide)⟩

theorem add_dnf_c1_witness :
    (∀ p ∈ [[Lit.mk 0 true], [Lit.mk 1 true]], ∀ l ∈ p, Lit.var l < (CnfFormula.mk 2 []).nvars) ∧
    (((∃ σ : Nat → Bool, (∀ v, v < (CnfFormula.mk 2 []).nvars → σ v = (fun _ => true) v) ∧
        Formula.sat σ (emittedClauses (CnfFormula.mk 2 []) [[Lit.mk 0 true], [Lit.mk 1 true]])) ↔
      ∃ p ∈ [[Lit.mk 0 true], [Lit.mk 1 true]], ∀ l ∈ p, Lit.sat (fun _ => true) l) ∧
    ([[Lit.mk 0 true], [Lit.mk 1 true]] = ([] : List (List Lit)) →
      ∀ σ : Nat → Bool,
        ¬ Formula.sat σ (emittedClauses (CnfFormula.mk 2 []) [[Lit.mk 0 true], [Lit.mk 1 true]]))) :=
  ⟨by decide, add_dnf_c1 (CnfFormula.mk 2 []) [[Lit.mk 0 true], [Lit.mk 1 true]]
    (fun _ => true) (by decide)⟩

/-- Source `Var` of `util/integer.rs`: an inclusive range together with one
literal per representable value. -/
structure Var where
  lo : Nat
  hi : Nat
  values : List Lit
deriving DecidableEq

/-- The values of an inclusive `usize` range `lo..=hi`, in order. -/
def rangeList (lo hi : Nat) : List Nat := (List.range (hi + 1 - lo)).map (fun i => lo + i)

/-- Source `Var::values` of `util/integer.rs`: the range zipped with the
value literals. -/
def Var.valuesZip (v : Var) : List (Nat × Lit) := (rangeList v.lo v.hi).zip v.values

/-- The `Index` implementation for `Var`, `&self.values[index - self.range.start()]`.
Rust `usize` subtraction underflows below the range start and the
vector indexing is bounds-checked above it, so both out-of-range cases
panic; panics are modelled as `none`. -/
def Var.index (v : Var) (i : Nat) : Option Lit :=
  if i < v.lo then none else v.values[i - v.lo]?

/-- Source `Model` of `util/integer.rs`: the literals the solver made true. -/
structure Model where
  inner : List Lit
deriving DecidableEq

/-- Source `Model::value`: scan the variable's values in range order and
return the first value whose literal the model contains; the source
panics (modelled `none`) when none is found. -/
def Model.value (m : Model) (var : Var) : Option Nat :=
  (var.valuesZip.find? (fun q => decide (q.2 ∈ m.inner))).map (fun q => q.1)

/-- The model the decision procedure returns for an assignment of the
`n` allocated variables: one literal per variable, with the polarity
the assignment gives it. -/
def Model.ofAssignment (σ : Nat → Bool) (n : Nat) : Model :=
  ⟨(List.range n).map (fun v => Lit.mk v (σ v))⟩

/-- Source `Problem` of `util/integer.rs`: a wrapper around the growing CNF
formula. -/
structure Problem where
  inner : CnfFormula
deriving DecidableEq

/-- Source `Problem::new`. -/
def Problem.new : Problem := ⟨⟨0, []⟩⟩

/-- The fresh literals allocated by `range.map(|_n| new_lit)` threading
the formula state left to right. -/
def newLits (s : CnfFormula) : Nat → List Lit × CnfFormula
  | 0 => ([], s)
  | w + 1 =>
    let l := Lit.mk s.nvars true
    let r := newLits { s with nvars := s.nvars + 1 } w
    (l :: r.1, r.2)

/-- The mutual-exclusion clauses of `Problem::new_var`: for each
literal, one clause against every later literal, matching the nested
source loop over `values[i+1..]`. -/
def mutexClauses : List Lit → List Clause
  | [] => []
  | a :: rest =>
    rest.map (fun b => [Lit.mk a.var false, Lit.mk b.var false]) ++ mutexClauses rest

/-- Source `Problem::new_var`: allocate one fresh literal per representable
value, add the at-least-one clause over all of them, then add the
pairwise mutual-exclusion clauses. -/
def Problem.new_var (p : Problem) (lo hi : Nat) : Var × Problem :=
  let r := newLits p.inner (hi + 1 - lo)
  let values := r.1
  (⟨lo, hi, values⟩,
   ⟨{ r.2 with clauses := r.2.clauses ++ [values] ++ mutexClauses values }⟩)

/-- Source `Problem::sum`: declare the result variable over the summed range,
then push one DNF term per pair of operand values, indexing the result
variable at the value sum (a possible panic, modelled via `Option`),
and hand the buffer to `add_dnf`. -/
def Problem.sum (p : Problem) (a b : Var) : Option (Var × Problem) :=
  let rp := p.new_var (a.lo + b.lo) (a.hi + b.hi)
  let r := rp.1
  let p1 := rp.2
  let pairs := a.valuesZip.flatMap (fun av => b.valuesZip.map (fun bv => (av, bv)))
  match pairs.mapM (fun q => (r.index (q.1.1 + q.2.1)).map (fun rl => [q.1.2, q.2.2, rl])) with
  | none => none
  | some buffer => some (r, ⟨addDnf p1.inner buffer⟩)

/-- Source `intersect` of `util/mod.rs`.  The source computes
`b.end().min(b.end())` for the upper bound, so the end of `a` never
enters the minimum. -/
def intersect (a b : Nat × Nat) : Nat × Nat := (max a.1 b.1, min b.2 b.2)

/-- Source `Problem::not_equals`: for each value of the computed intersection
range, add a clause forbidding both variables from taking it
simultaneously; the indexing of either variable may panic (`none`). -/
def Problem.not_equals (p : Problem) (a b : Var) : Option Problem :=
  (rangeList (intersect (a.lo, a.hi) (b.lo, b.hi)).1
      (intersect (a.lo, a.hi) (b.lo, b.hi)).2).foldlM
    (fun q i => do
      let la ← a.index i
      let lb ← b.index i
      some ⟨q.inner.add_clause [Lit.mk la.var false, Lit.mk lb.var false]⟩)
    p

/-- Source `Problem::equals`: a unit clause on the variable's literal for the
constant; indexing a constant outside the range panics (`none`) before
any clause is added. -/
def Problem.equals (p : Problem) (var : Var) (val : Nat) : Option Problem :=
  (var.index val).map (fun l => ⟨p.inner.add_clause [l]⟩)

/-- The canonical shape of the value literals `new_var` allocates. -/
def canonVals (m w : Nat) : List Lit := (List.range w).map (fun i => Lit.mk (m + i) true)

theorem newLits_spec : ∀ (w : Nat) (s : CnfFormula),
    newLits s w = (canonVals s.nvars w, ⟨s.nvars + w, s.clauses⟩) := by
  intro w
  induction w with
  | zero => intro s; simp [newLits, canonVals]
  | succ w ih =>
    intro s
    simp only [newLits, ih, canonVals]
    refine Prod.ext ?_ ?_
    · simp only [List.range_succ_eq_map, List.map_cons, List.map_map, Function.comp_def,
        Nat.add_zero]
      congr 1
      congr 1
      funext i
      congr 1
      omega
    · have harith : s.nvars + 1 + w = s.nvars + (w + 1) := by omega
      rw [harith]

theorem new_var_spec (p : Problem) (lo hi : Nat) :
    p.new_var lo hi =
      (⟨lo, hi, canonVals p.inner.nvars (hi + 1 - lo)⟩,
       ⟨⟨p.inner.nvars + (hi + 1 - lo),
         p.inner.clauses ++ [canonVals p.inner.nvars (hi + 1 - lo)]
           ++ mutexClauses (canonVals p.inner.nvars (hi + 1 - lo))⟩⟩) := by
  simp [Problem.new_var, newLits_spec]

/-- Exactly one variable of the block `m, m+1, …, m+w-1` is true. -/
def OneHot (σ : Nat → Bool) (m w : Nat) : Prop :=
  ∃ i, i < w ∧ σ (m + i) = true ∧ ∀ j, j < w → σ (m + j) = true → j = i

theorem mutexClauses_mem :
    ∀ (vals : List Lit) (i j : Nat) (hij : i < j) (hj : j < vals.length),
      [Lit.mk (vals.get ⟨i, Nat.lt_trans hij hj⟩).var false,
       Lit.mk (vals.get ⟨j, hj⟩).var false] ∈ mutexClauses vals := by
  intro vals
  induction vals with
  | nil => intro i j hij hj; simp at hj
  | cons a rest ih =>
    intro i j hij hj
    simp only [mutexClauses, List.mem_append]
    cases i with
    | zero =>
      left
      cases j with
      | zero => omega
      | succ j =>
        exact List.mem_map.mpr ⟨rest.get ⟨j, by simpa using hj⟩,
          List.get_mem rest j _, rfl⟩
    | succ i =>
      right
      cases j with
      | zero => omega
      | succ j => exact ih i j (by omega) (by simpa using hj)

theorem canonVals_length (m w : Nat) : (canonVals m w).length = w := by
  simp [canonVals]

theorem canonVals_mem_inv {m w : Nat} {l : Lit} (h : l ∈ canonVals m w) :
    ∃ i, i < w ∧ l = Lit.mk (m + i) true := by
  obtain ⟨i, hi, rfl⟩ := List.mem_map.mp h
  exact ⟨i, by simpa using hi, rfl⟩

theorem onehot_of_sat {σ : Nat → Bool} {m w : Nat}
    (hal : Clause.sat σ (canonVals m w))
    (hmx : ∀ c ∈ mutexClauses (canonVals m w), Clause.sat σ c) :
    OneHot σ m w := by
  obtain ⟨l, hl, hsl⟩ := hal
  obtain ⟨i, hi, rfl⟩ := canonVals_mem_inv hl
  refine ⟨i, hi, by simpa [Lit.sat] using hsl, ?_⟩
  intro j hj hσj
  by_contra hne
  have hσi : σ (m + i) = true := by simpa [Lit.sat] using hsl
  have key : ∀ u u' : Nat, u < u' → (hu' : u' < w) → σ (m + u) = true → σ (m + u') = true → False := by
    intro u u' huu hu' hσu hσu'
    have hc := hmx _ (mutexClauses_mem (canonVals m w) u u' huu
      (by simpa [canonVals_length] using hu'))
    obtain ⟨l', hl', hsl'⟩ := hc
    simp only [canonVals, List.get_eq_getElem, List.getElem_map, List.getElem_range] at hl'
    simp only [List.mem_cons, List.not_mem_nil, or_false] at hl'
    rcases hl' with rfl | rfl
    · simp only [Lit.sat] at hsl'
      simp [hσu] at hsl'
    · simp only [Lit.sat] at hsl'
      simp [hσu'] at hsl'
  rcases Nat.lt_or_ge j i with hlt | hge
  · exact key j i hlt hi hσj hσi
  · exact key i j (by omega) hj hσi hσj

theorem onehot_iff {σ : Nat → Bool} {m w i : Nat} (h : OneHot σ m w) (hi : i < w)
    (hσ : σ (m + i) = true) : ∀ j, j < w → (σ (m + j) = true ↔ j = i) := by
  obtain ⟨i0, hi0, hσ0, huniq⟩ := h
  have hii : i = i0 := huniq i hi hσ
  subst hii
  intro j hj
  constructor
  · exact huniq j hj
  · rintro rfl
    exact hσ

theorem find?_unique {α : Type} {p : α → Bool} :
    ∀ {l : List α} {a : α}, a ∈ l → p a = true → (∀ b ∈ l, p b = true → b = a) →
      l.find? p = some a := by
  intro l
  induction l with
  | nil => intro a ha; cases ha
  | cons x rest ih =>
    intro a ha hpa huniq
    by_cases hx : p x = true
    · rw [List.find?_cons_of_pos _ hx, huniq x (by simp) hx]
    · rw [List.find?_cons_of_neg _ hx]
      rcases List.mem_cons.mp ha with rfl | ha2
      · exact absurd hpa hx
      · exact ih ha2 hpa (fun b hb => huniq b (by simp [hb]))

theorem mem_ofAssignment {σ : Nat → Bool} {N : Nat} {l : Lit} :
    l ∈ (Model.ofAssignment σ N).inner ↔ l.var < N ∧ σ l.var = l.pol := by
  simp only [Model.ofAssignment, List.mem_map, List.mem_range]
  constructor
  · rintro ⟨v, hv, rfl⟩
    exact ⟨hv, rfl⟩
  · rintro ⟨h1, h2⟩
    exact ⟨l.var, h1, by rw [h2]⟩

theorem valuesZip_canon {a : Var} {m : Nat} (h : a.values = canonVals m (a.hi + 1 - a.lo)) :
    a.valuesZip = (List.range (a.hi + 1 - a.lo)).map (fun i => (a.lo + i, Lit.mk (m + i) true)) := by
  rw [Var.valuesZip, h, rangeList, canonVals, List.zip_map']

theorem value_decode {σ : Nat → Bool} {N : Nat} {a : Var} {m i : Nat}
    (ha : a.values = canonVals m (a.hi + 1 - a.lo))
    (hw : i < a.hi + 1 - a.lo) (hN : m + (a.hi + 1 - a.lo) ≤ N)
    (huniq : ∀ j, j < a.hi + 1 - a.lo → (σ (m + j) = true ↔ j = i)) :
    (Model.ofAssignment σ N).value a = some (a.lo + i) := by
  rw [Model.value, valuesZip_canon ha, List.find?_map]
  have hfind : (List.range (a.hi + 1 - a.lo)).find?
      ((fun q : Nat × Lit => decide (q.2 ∈ (Model.ofAssignment σ N).inner)) ∘
        (fun i => (a.lo + i, Lit.mk (m + i) true))) = some i := by
    refine find?_unique (List.mem_range.mpr hw) ?_ ?_
    · simp only [Function.comp_apply, decide_eq_true_eq, mem_ofAssignment]
      exact ⟨by omega, by simpa using (huniq i hw).mpr rfl⟩
    · intro b hb hpb
      simp only [Function.comp_apply, decide_eq_true_eq, mem_ofAssignment] at hpb
      exact (huniq b (List.mem_range.mp hb)).mp (by simpa using hpb.2)
  rw [hfind]
  rfl

/-- A bounded-integer variable is declared in a formula: its value
literals are one consecutive fresh block, all below the allocation
counter, and the at-least-one and mutual-exclusion clauses are in the
formula (exactly what `new_var` establishes, preserved because the
encoder only ever appends clauses and allocates further variables). -/
def declaredIn (v : Var) (s : CnfFormula) : Prop :=
  ∃ m, v.values = canonVals m (v.hi + 1 - v.lo) ∧
       m + (v.hi + 1 - v.lo) ≤ s.nvars ∧
       v.values ∈ s.clauses ∧
       ∀ c ∈ mutexClauses v.values, c ∈ s.clauses

theorem index_canon {a : Var} {m : Nat} (hv : a.values = canonVals m (a.hi + 1 - a.lo))
    {x : Nat} (h1 : a.lo ≤ x) (h2 : x ≤ a.hi) :
    a.index x = some (Lit.mk (m + (x - a.lo)) true) := by
  rw [Var.index, if_neg (by omega), hv, canonVals, List.getElem?_map,
    List.getElem?_range (by omega)]
  rfl

theorem index_canon_none {a : Var} {m : Nat} (hv : a.values = canonVals m (a.hi + 1 - a.lo))
    {x : Nat} (h : x < a.lo ∨ a.hi < x) : a.index x = none := by
  rw [Var.index]
  rcases h with h | h
  · rw [if_pos h]
  · by_cases hlo : x < a.lo
    · rw [if_pos hlo]
    · rw [if_neg hlo, hv]
      refine List.getElem?_eq_none ?_
      rw [canonVals_length]
      omega

theorem mapM_option_some {α β : Type} (f : α → Option β) (g : α → β) :
    ∀ (l : List α), (∀ x ∈ l, f x = some (g x)) → l.mapM f = some (l.map g) := by
  intro l
  induction l with
  | nil => intro _; rfl
  | cons x rest ih =>
    intro h
    rw [List.mapM_cons, h x (by simp), ih (fun y hy => h y (by simp [hy]))]
    rfl

theorem sum_eq (p : Problem) (a b : Var) :
    p.sum a b =
      match (a.valuesZip.flatMap (fun av => b.valuesZip.map (fun bv => (av, bv)))).mapM
          (fun q => (((p.new_var (a.lo + b.lo) (a.hi + b.hi)).1).index (q.1.1 + q.2.1)).map
            (fun rl => [q.1.2, q.2.2, rl])) with
      | none => none
      | some buffer =>
          some ((p.new_var (a.lo + b.lo) (a.hi + b.hi)).1,
            ⟨addDnf (p.new_var (a.lo + b.lo) (a.hi + b.hi)).2.inner buffer⟩) := rfl

theorem sum_spec {p : Problem} {a b : Var} {ma mb : Nat}
    (ha : a.values = canonVals ma (a.hi + 1 - a.lo))
    (hb : b.values = canonVals mb (b.hi + 1 - b.lo)) :
    ∃ buffer,
      p.sum a b = some
        (⟨a.lo + b.lo, a.hi + b.hi,
          canonVals p.inner.nvars (a.hi + b.hi + 1 - (a.lo + b.lo))⟩,
         ⟨addDnf
           ⟨p.inner.nvars + (a.hi + b.hi + 1 - (a.lo + b.lo)),
            p.inner.clauses
              ++ [canonVals p.inner.nvars (a.hi + b.hi + 1 - (a.lo + b.lo))]
              ++ mutexClauses (canonVals p.inner.nvars (a.hi + b.hi + 1 - (a.lo + b.lo)))⟩
           buffer⟩) ∧
      ∀ term ∈ buffer, ∃ i j, i < a.hi + 1 - a.lo ∧ j < b.hi + 1 - b.lo ∧
        term = [Lit.mk (ma + i) true, Lit.mk (mb + j) true,
                Lit.mk (p.inner.nvars + (i + j)) true] := by
  have hmem : ∀ q ∈ a.valuesZip.flatMap (fun av => b.valuesZip.map (fun bv => (av, bv))),
      ∃ i j, i < a.hi + 1 - a.lo ∧ j < b.hi + 1 - b.lo ∧
        q = ((a.lo + i, Lit.mk (ma + i) true), (b.lo + j, Lit.mk (mb + j) true)) := by
    intro q hq
    rw [valuesZip_canon ha, valuesZip_canon hb] at hq
    simp only [List.mem_flatMap, List.mem_map, List.mem_range] at hq
    obtain ⟨av, ⟨i, hi, rfl⟩, bv, ⟨j, hj, rfl⟩, rfl⟩ := hq
    exact ⟨i, j, hi, hj, rfl⟩
  have hmapM : (a.valuesZip.flatMap (fun av => b.valuesZip.map (fun bv => (av, bv)))).mapM
      (fun q => (((⟨a.lo + b.lo, a.hi + b.hi,
          canonVals p.inner.nvars (a.hi + b.hi + 1 - (a.lo + b.lo))⟩ : Var)).index
            (q.1.1 + q.2.1)).map (fun rl => [q.1.2, q.2.2, rl])) =
      some ((a.valuesZip.flatMap (fun av => b.valuesZip.map (fun bv => (av, bv)))).map
        (fun q => [q.1.2, q.2.2,
          Lit.mk (p.inner.nvars + (q.1.1 + q.2.1 - (a.lo + b.lo))) true])) := by
    apply mapM_option_some
    intro q hq
    obtain ⟨i, j, hi, hj, rfl⟩ := hmem q hq
    have hidx : (⟨a.lo + b.lo, a.hi + b.hi,
        canonVals p.inner.nvars (a.hi + b.hi + 1 - (a.lo + b.lo))⟩ : Var).index
          ((a.lo + i) + (b.lo + j))
        = some (Lit.mk (p.inner.nvars + ((a.lo + i) + (b.lo + j) - (a.lo + b.lo))) true) :=
      index_canon rfl (by show a.lo + b.lo ≤ a.lo + i + (b.lo + j); omega)
        (by show a.lo + i + (b.lo + j) ≤ a.hi + b.hi; omega)
    simp only [hidx]
    rfl
  refine ⟨(a.valuesZip.flatMap (fun av => b.valuesZip.map (fun bv => (av, bv)))).map
      (fun q => [q.1.2, q.2.2,
        Lit.mk (p.inner.nvars + (q.1.1 + q.2.1 - (a.lo + b.lo))) true]), ?_, ?_⟩
  · rw [sum_eq]
    simp only [new_var_spec]
    rw [hmapM]
  · intro term hterm
    obtain ⟨q, hq, rfl⟩ := List.mem_map.mp hterm
    obtain ⟨i, j, hi, hj, rfl⟩ := hmem q hq
    refine ⟨i, j, hi, hj, ?_⟩
    show [Lit.mk (ma + i) true, Lit.mk (mb + j) true,
        Lit.mk (p.inner.nvars + (a.lo + i + (b.lo + j) - (a.lo + b.lo))) true] = _
    have harith : a.lo + i + (b.lo + j) - (a.lo + b.lo) = i + j := by omega
    rw [harith]

/-- C2.  For two declared bounded-integer variables `a` and `b`, `sum`
returns a fresh variable over the inclusive range
`[a.lo + b.lo, a.hi + b.hi]`, and in every assignment satisfying all
clauses of the resulting formula the decoded value of the result equals
the decoded value of `a` plus the decoded value of `b`. -/
theorem sum_c2 (p : Problem) (a b : Var) (r : Var) (p' : Problem)
    (ha : declaredIn a p.inner) (hb : declaredIn b p.inner)
    (hsum : p.sum a b = some (r, p')) :
    r.lo = a.lo + b.lo ∧ r.hi = a.hi + b.hi ∧
    ∀ σ : Nat → Bool, Formula.sat σ p'.inner.clauses →
      ∃ x y, (Model.ofAssignment σ p'.inner.nvars).value a = some x ∧
        (Model.ofAssignment σ p'.inner.nvars).value b = some y ∧
        (Model.ofAssignment σ p'.inner.nvars).value r = some (x + y) := by
  obtain ⟨ma, hma, hmaN, hacl, hamx⟩ := ha
  obtain ⟨mb, hmb, hmbN, hbcl, hbmx⟩ := hb
  obtain ⟨buffer, heq, hbuf⟩ := sum_spec (p := p) hma hmb
  rw [heq] at hsum
  have hpair := Option.some.inj hsum
  rw [Prod.ext_iff] at hpair
  obtain ⟨hr, hp'⟩ := hpair
  subst hr
  subst hp'
  refine ⟨rfl, rfl, ?_⟩
  intro σ hsat
  have hsatP : ∀ c ∈ p.inner.clauses, Clause.sat σ c := by
    intro c hc
    exact hsat c (by rw [addDnf_clauses]; simp [hc])
  have honeA : OneHot σ ma (a.hi + 1 - a.lo) :=
    onehot_of_sat (by rw [← hma]; exact hsatP _ hacl)
      (fun c hc => hsatP c (hamx c (by rw [hma]; exact hc)))
  have honeB : OneHot σ mb (b.hi + 1 - b.lo) :=
    onehot_of_sat (by rw [← hmb]; exact hsatP _ hbcl)
      (fun c hc => hsatP c (hbmx c (by rw [hmb]; exact hc)))
  have honeR : OneHot σ p.inner.nvars (a.hi + b.hi + 1 - (a.lo + b.lo)) :=
    onehot_of_sat (hsat _ (by rw [addDnf_clauses]; simp))
      (fun c hc => hsat c (by rw [addDnf_clauses]; simp [hc]))
  have hsatDnf : Formula.sat σ
      (dnfClauses (p.inner.nvars + (a.hi + b.hi + 1 - (a.lo + b.lo))) buffer) := by
    intro c hc
    exact hsat c (by rw [addDnf_clauses]; simp [hc])
  obtain ⟨term, hterm, hall⟩ := dnfClauses_forward hsatDnf
  obtain ⟨i, j, hi, hj, rfl⟩ := hbuf term hterm
  have hσa : σ (ma + i) = true := by
    have := hall _ (by simp : Lit.mk (ma + i) true ∈ _)
    simpa [Lit.sat] using this
  have hσb : σ (mb + j) = true := by
    have := hall _ (by simp : Lit.mk (mb + j) true ∈ _)
    simpa [Lit.sat] using this
  have hσr : σ (p.inner.nvars + (i + j)) = true := by
    have := hall _ (by simp : Lit.mk (p.inner.nvars + (i + j)) true ∈ _)
    simpa [Lit.sat] using this
  have hij : i + j < a.hi + b.hi + 1 - (a.lo + b.lo) := by omega
  have hNmono : p.inner.nvars + (a.hi + b.hi + 1 - (a.lo + b.lo))
      ≤ (addDnf
          ⟨p.inner.nvars + (a.hi + b.hi + 1 - (a.lo + b.lo)),
           p.inner.clauses
             ++ [canonVals p.inner.nvars (a.hi + b.hi + 1 - (a.lo + b.lo))]
             ++ mutexClauses (canonVals p.inner.nvars
                  (a.hi + b.hi + 1 - (a.lo + b.lo)))⟩ buffer).nvars := by
    rw [addDnf_nvars]
    show p.inner.nvars + (a.hi + b.hi + 1 - (a.lo + b.lo))
        ≤ p.inner.nvars + (a.hi + b.hi + 1 - (a.lo + b.lo)) + buffer.length
    omega
  refine ⟨a.lo + i, b.lo + j, ?_, ?_, ?_⟩
  · exact value_decode hma hi (hmaN.trans ((Nat.le_add_right _ _).trans hNmono))
      (onehot_iff honeA hi hσa)
  · exact value_decode hmb hj (hmbN.trans ((Nat.le_add_right _ _).trans hNmono))
      (onehot_iff honeB hj hσb)
  · have hdec := value_decode (N := (addDnf
        ⟨p.inner.nvars + (a.hi + b.hi + 1 - (a.lo + b.lo)),
         p.inner.clauses
           ++ [canonVals p.inner.nvars (a.hi + b.hi + 1 - (a.lo + b.lo))]
           ++ mutexClauses (canonVals p.inner.nvars
                (a.hi + b.hi + 1 - (a.lo + b.lo)))⟩ buffer).nvars)
      (a := ⟨a.lo + b.lo, a.hi + b.hi,
        canonVals p.inner.nvars (a.hi + b.hi + 1 - (a.lo + b.lo))⟩)
      (m := p.inner.nvars) (i := i + j) rfl hij hNmono
      (onehot_iff honeR hij hσr)
    rw [hdec]
    congr 1
    show a.lo + b.lo + (i + j) = a.lo + i + (b.lo + j)
    omega

theorem countP_range_unique {p : Nat → Bool} :
    ∀ {w i : Nat}, i < w → p i = true → (∀ j, j < w → p j = true → j = i) →
      (List.range w).countP p = 1 := by
  intro w
  induction w with
  | zero => intro i hi; omega
  | succ w ih =>
    intro i hi hp huniq
    rw [List.range_succ, List.countP_append]
    rcases Nat.lt_or_ge i w with hlt | hge
    · rw [ih hlt hp (fun j hj hpj => huniq j (by omega) hpj)]
      have hpw : ¬ p w = true := by
        intro hpw
        have := huniq w (by omega) hpw
        omega
      simp [List.countP_cons, hpw]
    · have hiw : i = w := by omega
      subst hiw
      have h0 : (List.range i).countP p = 0 := by
        refine List.countP_eq_zero.mpr ?_
        intro x hx hpx
        have hxi := huniq x (by have := List.mem_range.mp hx; omega) hpx
        have := List.mem_range.mp hx
        omega
      rw [h0]
      simp [List.countP_cons, hp]

/-- C3.  A variable declared by `new_var` over a non-empty range
`lo..=hi` has exactly `hi - lo + 1` fresh value literals, the formula
gains the at-least-one clause and one mutual-exclusion clause per
unordered pair, so every satisfying assignment makes exactly one value
literal true, and `Model::value` then decodes to a value inside
`[lo, hi]`. -/
theorem new_var_c3 (p : Problem) (lo hi : Nat) (h : lo ≤ hi) :
    ((p.new_var lo hi).1.values.length = hi - lo + 1) ∧
    (∀ l ∈ (p.new_var lo hi).1.values, p.inner.nvars ≤ l.var) ∧
    ((p.new_var lo hi).2.inner.clauses
      = p.inner.clauses ++ [(p.new_var lo hi).1.values]
          ++ mutexClauses ((p.new_var lo hi).1.values)) ∧
    (∀ (i j : Nat) (hij : i < j) (hj : j < (p.new_var lo hi).1.values.length),
      [Lit.mk (((p.new_var lo hi).1.values.get ⟨i, Nat.lt_trans hij hj⟩)).var false,
       Lit.mk (((p.new_var lo hi).1.values.get ⟨j, hj⟩)).var false]
        ∈ (p.new_var lo hi).2.inner.clauses) ∧
    ∀ σ : Nat → Bool, Formula.sat σ (p.new_var lo hi).2.inner.clauses →
      ((p.new_var lo hi).1.values.countP (fun l => σ l.var == l.pol) = 1 ∧
       ∃ x, lo ≤ x ∧ x ≤ hi ∧
         (Model.ofAssignment σ (p.new_var lo hi).2.inner.nvars).value (p.new_var lo hi).1
           = some x) := by
  refine ⟨?_, ?_, ?_, ?_, ?_⟩
  · simp only [new_var_spec, canonVals_length]
    omega
  · intro l hl
    simp only [new_var_spec] at hl
    obtain ⟨i, _, rfl⟩ := canonVals_mem_inv hl
    exact Nat.le_add_right _ _
  · simp [new_var_spec]
  · intro i j hij hj
    revert hj
    rw [new_var_spec]
    intro hj
    simp only [List.mem_append]
    right
    exact mutexClauses_mem _ i j hij hj
  · intro σ hsat
    simp only [new_var_spec] at hsat ⊢
    have hone : OneHot σ p.inner.nvars (hi + 1 - lo) :=
      onehot_of_sat (hsat _ (by simp)) (fun c hc => hsat c (by simp [hc]))
    obtain ⟨i, hi2, hσi, huniq⟩ := hone
    constructor
    · rw [canonVals, List.countP_map]
      refine countP_range_unique (p := fun i => σ (p.inner.nvars + i) == (true : Bool))
        hi2 (by simp [hσi]) ?_
      intro j hj hpj
      exact huniq j hj (by simpa using hpj)
    · refine ⟨lo + i, by omega, by omega, ?_⟩
      exact value_decode rfl hi2
        (by
          show p.inner.nvars + (hi + 1 - lo) ≤ p.inner.nvars + (hi + 1 - lo)
          omega)
        (onehot_iff ⟨i, hi2, hσi, huniq⟩ hi2 hσi)

/-- C7.  For a declared bounded-integer variable, `equals` with an
in-range constant appends exactly the unit clause on the value literal;
with an out-of-range constant the indexing panics before any clause is
added (modelled as `none`): the error reaches the caller with the
formula untouched. -/
theorem equals_c7 (p : Problem) (a : Var) (v : Nat) (ha : declaredIn a p.inner) :
    (a.lo ≤ v → v ≤ a.hi → ∃ l, a.index v = some l ∧
        p.equals a v = some ⟨p.inner.add_clause [l]⟩) ∧
    ((v < a.lo ∨ a.hi < v) → p.equals a v = none) := by
  obtain ⟨m, hm, _, _, _⟩ := ha
  constructor
  · intro h1 h2
    refine ⟨Lit.mk (m + (v - a.lo)) true, index_canon hm h1 h2, ?_⟩
    rw [Problem.equals, index_canon hm h1 h2]
    rfl
  · intro hout
    rw [Problem.equals, index_canon_none hm hout]
    rfl

/-- A concrete problem used by the witnesses: two declared variables
over `1..=2` and `1..=1` and then over `1..=3`. -/
def exP0 : Problem := Problem.new

def exA : Var := (exP0.new_var 1 2).1

def exP1 : Problem := (exP0.new_var 1 2).2

def exB : Var := (exP1.new_var 1 1).1

def exP2 : Problem := (exP1.new_var 1 1).2

def exSumR : Var := ⟨2, 3, [Lit.mk 3 true, Lit.mk 4 true]⟩

def exSumP : Problem :=
  ⟨⟨7, [[Lit.mk 0 true, Lit.mk 1 true], [Lit.mk 0 false, Lit.mk 1 false],
        [Lit.mk 2 true],
        [Lit.mk 3 true, Lit.mk 4 true], [Lit.mk 3 false, Lit.mk 4 false],
        [Lit.mk 5 false, Lit.mk 0 true], [Lit.mk 5 false, Lit.mk 2 true],
        [Lit.mk 5 false, Lit.mk 3 true],
        [Lit.mk 6 false, Lit.mk 1 true], [Lit.mk 6 false, Lit.mk 2 true],
        [Lit.mk 6 false, Lit.mk 4 true],
        [Lit.mk 5 true, Lit.mk 6 true]]⟩⟩

theorem sum_c2_witness :
    exP2.sum exA exB = some (exSumR, exSumP) ∧
    (exSumR.lo = exA.lo + exB.lo ∧ exSumR.hi = exA.hi + exB.hi ∧
      ∀ σ : Nat → Bool, Formula.sat σ exSumP.inner.clauses →
        ∃ x y, (Model.ofAssignment σ exSumP.inner.nvars).value exA = some x ∧
          (Model.ofAssignment σ exSumP.inner.nvars).value exB = some y ∧
          (Model.ofAssignment σ exSumP.inner.nvars).value exSumR = some (x + y)) :=
  ⟨by decide, sum_c2 exP2 exA exB exSumR exSumP ⟨0, by decide⟩ ⟨2, by decide⟩ (by decide)⟩

theorem new_var_c3_witness :
    (1 : Nat) ≤ 3 ∧ (exP0.new_var 1 3).1.values.length = 3 - 1 + 1 :=
  ⟨by decide, (new_var_c3 exP0 1 3 (by decide)).1⟩

theorem equals_c7_witness :
    (exA.lo ≤ 2 → 2 ≤ exA.hi → ∃ l, exA.index 2 = some l ∧
        exP1.equals exA 2 = some ⟨exP1.inner.add_clause [l]⟩) ∧
    ((2 < exA.lo ∨ exA.hi < 2) → exP1.equals exA 2 = none) :=
  equals_c7 exP1 exA 2 ⟨0, by decide⟩

/-- The concrete witness problem for C4: `a` over `1..=2`, `b` over
`1..=3`, declared in sequence. -/
def exC4B : Var := (exP1.new_var 1 3).1

def exC4P : Problem := (exP1.new_var 1 3).2

/-- C4, evaluated at the failing input: with `a` over `1..=2` and `b`
over `1..=3`, `intersect` returns `1..=3` (its upper bound is
`b.end().min(b.end())`, a typo for `a.end().min(b.end())`), so
`not_equals` walks past the end of `a`'s literals and panics
(modelled as `none`) instead of adding clauses exactly for the
intersection `1..=2`. -/
theorem not_equals_c4_bug :
    exC4P.not_equals exA exC4B = none ∧
    intersect (exA.lo, exA.hi) (exC4B.lo, exC4B.hi) = (1, 3) ∧
    (1, 3) ≠ (1, 2) := by decide

/-- Source `Op` of `kdoku/mod.rs`. -/
inductive Op where
  | Plus
  | Minus
  | Times
  | Div
deriving DecidableEq

/-- Source `Constraint` of `kdoku/mod.rs`; `result` holds the `u8` target. -/
structure Constraint where
  op : Op
  result : Nat
  cells : List (Nat × Nat)
deriving DecidableEq

/-- Source `LogicalError` of `kdoku/mod.rs`. -/
inductive LogicalError where
  | ImpossibleConstraint : Constraint → LogicalError
  | UnsupportedConstraint : Constraint → LogicalError
  | Unsatisfyable : LogicalError
  | SolverError : LogicalError
deriving DecidableEq

/-- Source `BaseGrid` of `kdoku/mod.rs`: the formula plus the 6x6x6 array of
cell-value variables, modelled as a coordinate function (the array is
only ever indexed in bounds by the loops; user-supplied cell
coordinates are bounds-checked where they are used). -/
structure BaseGrid where
  formula : CnfFormula
  vars : Nat → Nat → Nat → Nat

/-- A decoded 6x6 solution grid of digits. -/
abbrev Solution := List (List Nat)

/-- The array access `self.vars[x][y]` on a user-supplied cell: out of
bounds panics (modelled `none`). -/
def lookupCell (g : BaseGrid) (q : Nat × Nat) : Option (Nat → Nat) :=
  if q.1 < 6 ∧ q.2 < 6 then some (g.vars q.1 q.2) else none

/-- Source `itertools::multi_cartesian_product` over `vars.len()` copies of
`0..6`: every value sequence, leftmost position slowest; the product of
zero iterators is empty. -/
def multiCartesian : Nat → List (List Nat)
  | 0 => []
  | 1 => (List.range 6).map (fun x => [x])
  | k + 2 =>
    (List.range 6).flatMap (fun x => (multiCartesian (k + 1)).map (fun rest => x :: rest))

/-- Source `make_binary_constraint` of `kdoku/mod.rs`: `None` unless exactly
two operands, else one positive term per value pair satisfying the
predicate.  The `u8` arithmetic inside the predicates wraps at 256. -/
def make_binary_constraint (vars : List (Nat → Nat)) (op : Nat → Nat → Bool) :
    Option (List (List Lit)) :=
  match vars with
  | [v1, v2] =>
    some ((List.range 6).flatMap (fun x1 =>
      (List.range 6).filterMap (fun x2 =>
        if op (x1 + 1) (x2 + 1) then some [Lit.mk (v1 x1) true, Lit.mk (v2 x2) true]
        else none)))
  | _ => none

/-- Source `make_associative_constraint` of `kdoku/mod.rs`: one positive term
per value combination folding to the target; `None` when no combination
matches.  The `u16` fold wraps at 65536. -/
def make_associative_constraint (vars : List (Nat → Nat)) (op : Nat → Nat → Nat)
    (z r : Nat) : Option (List (List Lit)) :=
  let terms := (multiCartesian vars.length).filterMap (fun chosen =>
    if (chosen.map (fun x => x + 1)).foldl op z = r
    then some ((chosen.zip vars).map (fun q => Lit.mk (q.2 q.1) true))
    else none)
  if terms = [] then none else some terms

/-- Source `BaseGrid::add_dnf`, textually the same Tseitin encoding as the
`DnfFormula` trait method, applied to the grid's formula. -/
def BaseGrid.add_dnf (g : BaseGrid) (dnf : List (List Lit)) : BaseGrid :=
  { g with formula := addDnf g.formula dnf }

/-- Source `BaseGrid::add_constraint`: look up the cell variable groups (a
possible panic), build the DNF terms for the operation, report
`ImpossibleConstraint` when the builder returns `None` or an empty term
list, otherwise encode the DNF. -/
def BaseGrid.addConstraint (g : BaseGrid) (c : Constraint) :
    Option (Except LogicalError BaseGrid) :=
  match c.cells.mapM (lookupCell g) with
  | none => none
  | some vars =>
    let termsOpt :=
      match c.op with
      | Op.Plus => make_associative_constraint vars (fun a b => (a + b) % 65536) 0 c.result
      | Op.Minus => make_binary_constraint vars
          (fun a b => ((a + c.result) % 256 == b) || ((b + c.result) % 256 == a))
      | Op.Times => make_associative_constraint vars (fun a b => (a * b) % 65536) 1 c.result
      | Op.Div => make_binary_constraint vars
          (fun a b => ((a * c.result) % 256 == b) || ((b * c.result) % 256 == a))
    match termsOpt with
    | none => some (Except.error (LogicalError.ImpossibleConstraint c))
    | some terms =>
      if terms = [] then some (Except.error (LogicalError.ImpossibleConstraint c))
      else some (Except.ok (g.add_dnf terms))

/-- The constraint loop at the head of `BaseGrid::solve`. -/
def addAll : BaseGrid → List Constraint → Option (Except LogicalError BaseGrid)
  | g, [] => some (Except.ok g)
  | g, c :: cs =>
    match g.addConstraint c with
    | none => none
    | some (Except.error e) => some (Except.error e)
    | some (Except.ok g') => addAll g' cs

/-- The model-decoding loop at the tail of `BaseGrid::solve`. -/
def decodeSolution (g : BaseGrid) (model : List Lit) : Solution :=
  (List.range 6).map (fun x => (List.range 6).map (fun y =>
    (List.range 6).foldl
      (fun acc v => if Lit.mk (g.vars x y v) true ∈ model then v + 1 else acc) 0))

/-- Source `BaseGrid::solve`: add every constraint, then hand the formula to
the external decision procedure (the abstract `solver` parameter, the
black-box adapter returning a model or unsatisfiable), and decode. -/
def BaseGrid.solve (g : BaseGrid) (constraints : List Constraint)
    (solver : List Clause → Option (List Lit)) : Option (Except LogicalError Solution) :=
  match addAll g constraints with
  | none => none
  | some (Except.error e) => some (Except.error e)
  | some (Except.ok g') =>
    match solver g'.formula.clauses with
    | none => some (Except.error LogicalError.Unsatisfyable)
    | some model => some (Except.ok (decodeSolution g' model))

theorem mapM_lookup (g : BaseGrid) (cells : List (Nat × Nat))
    (hin : ∀ q ∈ cells, q.1 < 6 ∧ q.2 < 6) :
    cells.mapM (lookupCell g) = some (cells.map (fun q => g.vars q.1 q.2)) :=
  mapM_option_some _ _ cells (fun q hq => by simp [lookupCell, hin q hq])

theorem make_binary_none_iff (vars : List (Nat → Nat)) (op : Nat → Nat → Bool) :
    make_binary_constraint vars op = none ↔ vars.length ≠ 2 := by
  rcases vars with _ | ⟨a, _ | ⟨b, _ | ⟨x, t⟩⟩⟩
  · simp [make_binary_constraint]
  · simp [make_binary_constraint]
  · simp [make_binary_constraint]
  · simp only [make_binary_constraint, List.length_cons]
    constructor
    · intro _
      omega
    · intro _
      trivial

/-- The term list `make_binary_constraint` builds for exactly two
operands, named for use in proofs. -/
def binTerms (v1 v2 : Nat → Nat) (op : Nat → Nat → Bool) : List (List Lit) :=
  (List.range 6).flatMap (fun x1 => (List.range 6).filterMap (fun x2 =>
    if op (x1 + 1) (x2 + 1) then some [Lit.mk (v1 x1) true, Lit.mk (v2 x2) true]
    else none))

theorem make_binary_pair (v1 v2 : Nat → Nat) (op : Nat → Nat → Bool) :
    make_binary_constraint [v1, v2] op = some (binTerms v1 v2 op) := rfl

theorem binTerms_nil_iff (v1 v2 : Nat → Nat) (op : Nat → Nat → Bool) :
    binTerms v1 v2 op = []
      ↔ ∀ x1 ∈ List.range 6, ∀ x2 ∈ List.range 6, op (x1 + 1) (x2 + 1) = false := by
  simp [binTerms, List.flatMap_eq_nil_iff, List.filterMap_eq_nil, ite_eq_right_iff]

theorem make_assoc_none_iff (vars : List (Nat → Nat)) (op : Nat → Nat → Nat) (z r : Nat) :
    make_associative_constraint vars op z r = none ↔
      ∀ chosen ∈ multiCartesian vars.length,
        ¬ ((chosen.map (fun x => x + 1)).foldl op z = r) := by
  simp only [make_associative_constraint]
  have hsplit : ∀ (X : List (List Lit)), (if X = [] then none else some X) = none ↔ X = [] := by
    intro X
    split
    · simpa
    · simp
      intro hc
      simp_all
  rw [hsplit, List.filterMap_eq_nil]
  simp [ite_eq_right_iff]

theorem make_assoc_some_ne_nil {vars : List (Nat → Nat)} {op : Nat → Nat → Nat}
    {z r : Nat} {terms : List (List Lit)}
    (h : make_associative_constraint vars op z r = some terms) : terms ≠ [] := by
  simp only [make_associative_constraint] at h
  split at h
  · cases h
  · injection h with h2
    subst h2
    assumption

theorem binary_cases (vars : List (Nat → Nat)) (op : Nat → Nat → Bool) :
    (make_binary_constraint vars op = none ∧ vars.length ≠ 2) ∨
    ∃ v1 v2, vars = [v1, v2] := by
  rcases vars with _ | ⟨a, _ | ⟨b, _ | ⟨x, t⟩⟩⟩
  · exact Or.inl ⟨rfl, by simp⟩
  · exact Or.inl ⟨rfl, by simp⟩
  · exact Or.inr ⟨a, b, rfl⟩
  · exact Or.inl ⟨rfl, by simp⟩

theorem addConstraint_error_transfer {g g' : BaseGrid} {c : Constraint}
    (hin : ∀ q ∈ c.cells, q.1 < 6 ∧ q.2 < 6) {e : LogicalError}
    (h : g.addConstraint c = some (Except.error e)) :
    g'.addConstraint c = some (Except.error e) := by
  rw [BaseGrid.addConstraint] at h ⊢
  rw [mapM_lookup g c.cells hin] at h
  rw [mapM_lookup g' c.cells hin]
  have hlen : (c.cells.map (fun q => g.vars q.1 q.2)).length
      = (c.cells.map (fun q => g'.vars q.1 q.2)).length := by simp
  cases hop : c.op with
  | Plus =>
    rcases hmk : make_associative_constraint (c.cells.map (fun q => g.vars q.1 q.2))
        (fun a b => (a + b) % 65536) 0 c.result with _ | terms
    · have hmk' : make_associative_constraint (c.cells.map (fun q => g'.vars q.1 q.2))
          (fun a b => (a + b) % 65536) 0 c.result = none := by
        rw [make_assoc_none_iff] at hmk ⊢
        rw [← hlen]
        exact hmk
      simp only [hop, hmk] at h
      simp only [hop, hmk']
      exact h
    · have hne := make_assoc_some_ne_nil hmk
      simp only [hop, hmk, if_neg hne] at h
      cases h
  | Times =>
    rcases hmk : make_associative_constraint (c.cells.map (fun q => g.vars q.1 q.2))
        (fun a b => (a * b) % 65536) 1 c.result with _ | terms
    · have hmk' : make_associative_constraint (c.cells.map (fun q => g'.vars q.1 q.2))
          (fun a b => (a * b) % 65536) 1 c.result = none := by
        rw [make_assoc_none_iff] at hmk ⊢
        rw [← hlen]
        exact hmk
      simp only [hop, hmk] at h
      simp only [hop, hmk']
      exact h
    · have hne := make_assoc_some_ne_nil hmk
      simp only [hop, hmk, if_neg hne] at h
      cases h
  | Minus =>
    rcases binary_cases (c.cells.map (fun q => g.vars q.1 q.2))
        (fun a b => ((a + c.result) % 256 == b) || ((b + c.result) % 256 == a))
      with ⟨hmk, hl2⟩ | ⟨v1, v2, hshape⟩
    · have hmk' : make_binary_constraint (c.cells.map (fun q => g'.vars q.1 q.2))
          (fun a b => ((a + c.result) % 256 == b) || ((b + c.result) % 256 == a)) = none :=
        (make_binary_none_iff _ _).mpr (by omega)
      simp only [hop, hmk] at h
      simp only [hop, hmk']
      exact h
    · obtain ⟨w1, w2, hshape'⟩ : ∃ w1 w2,
          c.cells.map (fun q => g'.vars q.1 q.2) = [w1, w2] := by
        rw [hshape] at hlen
        rcases hl : c.cells.map (fun q => g'.vars q.1 q.2) with _ | ⟨a1, _ | ⟨a2, _ | _⟩⟩ <;>
          rw [hl] at hlen <;> simp at hlen
        exact ⟨a1, a2, hl⟩
      rw [hshape] at h
      rw [hshape']
      simp only [hop, make_binary_pair] at h ⊢
      by_cases hterms : binTerms v1 v2
          (fun a b => ((a + c.result) % 256 == b) || ((b + c.result) % 256 == a)) = []
      · have hcond := (binTerms_nil_iff v1 v2
          (fun a b => ((a + c.result) % 256 == b) || ((b + c.result) % 256 == a))).mp hterms
        have hterms' := (binTerms_nil_iff w1 w2
          (fun a b => ((a + c.result) % 256 == b) || ((b + c.result) % 256 == a))).mpr hcond
        rw [if_pos hterms] at h
        rw [if_pos hterms']
        exact h
      · rw [if_neg hterms] at h
        cases h
  | Div =>
    rcases binary_cases (c.cells.map (fun q => g.vars q.1 q.2))
        (fun a b => ((a * c.result) % 256 == b) || ((b * c.result) % 256 == a))
      with ⟨hmk, hl2⟩ | ⟨v1, v2, hshape⟩
    · have hmk' : make_binary_constraint (c.cells.map (fun q => g'.vars q.1 q.2))
          (fun a b => ((a * c.result) % 256 == b) || ((b * c.result) % 256 == a)) = none :=
        (make_binary_none_iff _ _).mpr (by omega)
      simp only [hop, hmk] at h
      simp only [hop, hmk']
      exact h
    · obtain ⟨w1, w2, hshape'⟩ : ∃ w1 w2,
          c.cells.map (fun q => g'.vars q.1 q.2) = [w1, w2] := by
        rw [hshape] at hlen
        rcases hl : c.cells.map (fun q => g'.vars q.1 q.2) with _ | ⟨a1, _ | ⟨a2, _ | _⟩⟩ <;>
          rw [hl] at hlen <;> simp at hlen
        exact ⟨a1, a2, hl⟩
      rw [hshape] at h
      rw [hshape']
      simp only [hop, make_binary_pair] at h ⊢
      by_cases hterms : binTerms v1 v2
          (fun a b => ((a * c.result) % 256 == b) || ((b * c.result) % 256 == a)) = []
      · have hcond := (binTerms_nil_iff v1 v2
          (fun a b => ((a * c.result) % 256 == b) || ((b * c.result) % 256 == a))).mp hterms
        have hterms' := (binTerms_nil_iff w1 w2
          (fun a b => ((a * c.result) % 256 == b) || ((b * c.result) % 256 == a))).mpr hcond
        rw [if_pos hterms] at h
        rw [if_pos hterms']
        exact h
      · rw [if_neg hterms] at h
        cases h

theorem addAll_append (g : BaseGrid) (cs1 cs2 : List Constraint) :
    addAll g (cs1 ++ cs2) =
      match addAll g cs1 with
      | none => none
      | some (Except.error e) => some (Except.error e)
      | some (Except.ok g1) => addAll g1 cs2 := by
  induction cs1 generalizing g with
  | nil => rfl
  | cons c cs ih =>
    simp only [List.cons_append, addAll]
    cases g.addConstraint c with
    | none => rfl
    | some r =>
      cases r with
      | error e => rfl
      | ok g' => exact ih g'

/-- The empty base grid used by the kdoku witnesses; the claims hold
for every grid, so the trivial one suffices for evaluation. -/
def exGrid : BaseGrid := ⟨⟨0, []⟩, fun _ _ _ => 0⟩

/-- A subtraction constraint with one operand. -/
def exC8 : Constraint := ⟨Op.Minus, 1, [(0, 0)]⟩

/-- C8, as stated, is false: a binary-only constraint of arity one is
rejected with `ImpossibleConstraint`, not with the (never constructed)
`UnsupportedConstraint` variant. -/
theorem add_constraint_c8_counterexample :
    BaseGrid.addConstraint exGrid exC8
      = some (Except.error (LogicalError.ImpossibleConstraint exC8)) ∧
    LogicalError.ImpossibleConstraint exC8 ≠ LogicalError.UnsupportedConstraint exC8 :=
  ⟨rfl, fun h => LogicalError.noConfusion h⟩

/-- C8, amended.  A binary-only operation (subtraction or division)
with an arity other than two is rejected immediately — nothing is
encoded into the formula and `solve` stops before the decision
procedure — but the error returned is `ImpossibleConstraint`, because
`add_constraint` maps the `None` of `make_binary_constraint` to
`ImpossibleConstraint`; the `UnsupportedConstraint` variant is never
built. -/
theorem add_constraint_c8 (g : BaseGrid) (c : Constraint)
    (hop : c.op = Op.Minus ∨ c.op = Op.Div) (har : c.cells.length ≠ 2)
    (hin : ∀ q ∈ c.cells, q.1 < 6 ∧ q.2 < 6) :
    g.addConstraint c = some (Except.error (LogicalError.ImpossibleConstraint c)) ∧
    ∀ (cs : List Constraint) (solver : List Clause → Option (List Lit)),
      g.solve (c :: cs) solver
        = some (Except.error (LogicalError.ImpossibleConstraint c)) := by
  have hvars := mapM_lookup g c.cells hin
  have hlen : (c.cells.map (fun q => g.vars q.1 q.2)).length ≠ 2 := by simpa using har
  have hmain : g.addConstraint c
      = some (Except.error (LogicalError.ImpossibleConstraint c)) := by
    rw [BaseGrid.addConstraint, hvars]
    rcases hop with hop | hop <;>
      simp only [hop, (make_binary_none_iff _ _).mpr hlen]
  refine ⟨hmain, ?_⟩
  intro cs solver
  rw [BaseGrid.solve]
  simp only [addAll, hmain]

/-- A one-cell addition constraint whose target 9 is unreachable (a
single cell holds 1 to 6). -/
def exC9 : Constraint := ⟨Op.Plus, 9, [(0, 0)]⟩

/-- C9.  If the constraints before `c` all encode successfully and `c`
has zero satisfying value combinations (so `add_constraint` reports
`ImpossibleConstraint c`), then `solve` reports exactly that error for
every decision procedure: the loop stops at `c` before the solver is
ever consulted, so the result does not depend on the solver at all. -/
theorem solve_c9 (g g1 : BaseGrid) (cs1 cs2 : List Constraint) (c : Constraint)
    (hin : ∀ q ∈ c.cells, q.1 < 6 ∧ q.2 < 6)
    (hok : addAll g cs1 = some (Except.ok g1))
    (hbad : g.addConstraint c
      = some (Except.error (LogicalError.ImpossibleConstraint c))) :
    ∀ solver : List Clause → Option (List Lit),
      g.solve (cs1 ++ c :: cs2) solver
        = some (Except.error (LogicalError.ImpossibleConstraint c)) := by
  intro solver
  rw [BaseGrid.solve, addAll_append, hok]
  have hbad1 : g1.addConstraint c
      = some (Except.error (LogicalError.ImpossibleConstraint c)) :=
    addConstraint_error_transfer hin hbad
  simp only [addAll, hbad1]

theorem add_constraint_c8_witness :
    ((⟨Op.Div, 2, [(0, 0), (1, 0), (2, 0)]⟩ : Constraint).op = Op.Minus ∨
      (⟨Op.Div, 2, [(0, 0), (1, 0), (2, 0)]⟩ : Constraint).op = Op.Div) ∧
    (⟨Op.Div, 2, [(0, 0), (1, 0), (2, 0)]⟩ : Constraint).cells.length ≠ 2 ∧
    (BaseGrid.addConstraint exGrid ⟨Op.Div, 2, [(0, 0), (1, 0), (2, 0)]⟩
        = some (Except.error (LogicalError.ImpossibleConstraint
            ⟨Op.Div, 2, [(0, 0), (1, 0), (2, 0)]⟩)) ∧
      ∀ (cs : List Constraint) (solver : List Clause → Option (List Lit)),
        BaseGrid.solve exGrid (⟨Op.Div, 2, [(0, 0), (1, 0), (2, 0)]⟩ :: cs) solver
          = some (Except.error (LogicalError.ImpossibleConstraint
              ⟨Op.Div, 2, [(0, 0), (1, 0), (2, 0)]⟩))) :=
  ⟨Or.inr rfl, by decide,
    add_constraint_c8 exGrid ⟨Op.Div, 2, [(0, 0), (1, 0), (2, 0)]⟩ (Or.inr rfl) (by decide)
      (by decide)⟩

theorem solve_c9_witness :
    (∀ q ∈ exC9.cells, q.1 < 6 ∧ q.2 < 6) ∧
    addAll exGrid [] = some (Except.ok exGrid) ∧
    BaseGrid.addConstraint exGrid exC9
      = some (Except.error (LogicalError.ImpossibleConstraint exC9)) ∧
    BaseGrid.solve exGrid ([] ++ exC9 :: []) (fun _ => none)
      = some (Except.error (LogicalError.ImpossibleConstraint exC9)) :=
  ⟨by decide, rfl, rfl,
    solve_c9 exGrid exGrid [] [] exC9 (by decide) rfl rfl (fun _ => none)⟩
